import Mathlib

/-!
Shallow embedding of the validation and secure-materialization core of the
vibing-cli repository (src/utils/validation.ts, src/commands/validate.ts,
src/commands/init.ts), together with theorems settling the frozen claims
about it.

Conventions of the embedding:
- JavaScript strings are Lean `String` values (a structure holding a list of
  characters); the JS primitives startsWith / endsWith / includes are modelled
  by list-prefix / list-suffix / list-infix tests on the character lists.
- The Node path library (path.normalize, path.join, path.isAbsolute,
  path.relative) is modelled on POSIX paths by splitting on the slash
  character and processing the dot and dot-dot components; trailing-slash
  preservation is not modelled (no path in the embedded code carries one).
- The filesystem is an explicit tree value with regular files (with a
  readability flag), directories and symbolic links; fs.stat / fs.readdir /
  fs.pathExists resolve symbolic links (with absolute targets), while
  readdir-with-file-types reports the unresolved kind of each entry, as Node
  does. Resolution is bounded by a fuel parameter, the counterpart of the
  kernel's link-resolution limit.
- The module-level `defaultResult` object of validation.ts is spread-copied
  into each validator result; a JS spread copies the `errors` / `warnings`
  array references, so every validator call shares the same two arrays.  The
  embedding threads those two arrays as an explicit `ModuleState`; each
  validator returns its result together with the updated state, and a result
  list read later by a caller is the list held in the state at read time.
-/

namespace VC

/-! ## Character-list path model (Node path.posix) -/

def splitOnCharAux (sep : Char) : List Char → List Char → List (List Char)
  | [], acc => [acc.reverse]
  | c :: cs, acc =>
    if c = sep then acc.reverse :: splitOnCharAux sep cs []
    else splitOnCharAux sep cs (c :: acc)

def splitOnChar (sep : Char) (l : List Char) : List (List Char) :=
  splitOnCharAux sep l []

/-- Path components of a character list: split on the slash and drop empty
segments. -/
def splitParts (l : List Char) : List (List Char) :=
  (splitOnChar '/' l).filter (fun p => p ≠ [])

def dotPart : List Char := ['.']

def dotDotPart : List Char := ['.', '.']

/-- One step of Node path normalization over a stack of already-kept
components (stored reversed). -/
def normStep (abs : Bool) (stack : List (List Char)) (c : List Char) :
    List (List Char) :=
  if c = dotPart then stack
  else if c = dotDotPart then
    if stack = [] then (if abs then [] else [dotDotPart])
    else if stack.headD [] = dotDotPart then c :: stack else stack.tail
  else c :: stack

def normComps (abs : Bool) (cs : List (List Char)) : List (List Char) :=
  (cs.foldl (normStep abs) []).reverse

/-- Render components joined by slashes (no leading slash). -/
def renderParts : List (List Char) → List Char
  | [] => []
  | [c] => c
  | c :: c2 :: rest => c ++ '/' :: renderParts (c2 :: rest)

def isAbsL (l : List Char) : Bool := l.head? = some '/'

/-- Model of Node path.normalize (POSIX), on character lists. -/
def normalizeL (l : List Char) : List Char :=
  let abs := isAbsL l
  let cs := normComps abs (splitParts l)
  if abs then '/' :: renderParts cs
  else if cs = [] then dotPart else renderParts cs

/-- Model of Node path.normalize (POSIX). -/
def normalizePath (s : String) : String := ⟨normalizeL s.data⟩

/-- Model of Node path.isAbsolute (POSIX). -/
def isAbsolutePath (s : String) : Bool := isAbsL s.data

/-- Model of Node path.join of two segments: concatenate with a slash and
normalize, as path.join does. -/
def joinPath (a b : String) : String := ⟨normalizeL (a.data ++ '/' :: b.data)⟩

/-- Normalized components of a path string. -/
def pathComps (s : String) : List (List Char) := splitParts (normalizeL s.data)

/-- Containment of a path inside a root, component-wise after normalization:
the meaning of the ContainmentRoot invariant of the spec. -/
def pathWithin (root p : String) : Bool :=
  (pathComps root).isPrefixOf (pathComps p)

def dropCommon : List (List Char) → List (List Char) →
    List (List Char) × List (List Char)
  | a :: as, b :: bs =>
    if a = b then dropCommon as bs else (a :: as, b :: bs)
  | as, bs => (as, bs)

/-- Model of Node path.relative for two absolute paths. -/
def relativePath (f t : String) : String :=
  let p := dropCommon (pathComps f) (pathComps t)
  ⟨renderParts (p.1.map (fun _ => dotDotPart) ++ p.2)⟩

/-! ## JS string primitives -/

/-- Model of JS String.prototype.startsWith. -/
def strStartsWith (s pre : String) : Bool := pre.data.isPrefixOf s.data

/-- Model of JS String.prototype.endsWith. -/
def strEndsWith (s suf : String) : Bool := suf.data.isSuffixOf s.data

/-- Model of JS String.prototype.includes. -/
def strContainsSub (s pat : String) : Bool :=
  s.data.tails.any (fun t => pat.data.isPrefixOf t)

/-- JS falsiness of an optional string (undefined, null and the empty string
are falsy; every other string is truthy). -/
def falsyStr : Option String → Bool
  | none => true
  | some s => s = ""

/-! ## Data model (src/types/index.ts) -/

/-- One validation finding.  The ValidationError / ValidationWarning
interfaces declare code, message and an optional path; consolidateResults in
validate.ts additionally attaches a category naming the source validator, so
the embedded diagnostic carries that field too (absent on creation). -/
structure Diagnostic where
  code : String
  message : String
  path : Option String := none
  category : Option String := none
deriving Repr, DecidableEq

structure ValidationResult where
  valid : Bool
  errors : List Diagnostic
  warnings : List Diagnostic
deriving Repr, DecidableEq

/-- Author object of the manifest (an object is always truthy in JS, so only
its presence matters to the validators). -/
structure Author where
  name : String
  email : Option String := none
  url : Option String := none
deriving Repr, DecidableEq

structure Permission where
  type : Option String := none
  access : Option (List String) := none
  scope : Option String := none
  purpose : Option String := none
deriving Repr, DecidableEq

/-- Manifest fields read by the validators.  Every field is optional at
runtime (the manifest is parsed from JSON), with none standing for a missing
(undefined) field. -/
structure Manifest where
  id : Option String := none
  name : Option String := none
  version : Option String := none
  type : Option String := none
  description : Option String := none
  author : Option Author := none
  permissions : Option (List Permission) := none
deriving Repr, DecidableEq

/-- The two arrays of the module-level defaultResult object of validation.ts.
A JS object spread copies array fields by reference, so every validator call
aliases these same two arrays; the embedding threads them explicitly. -/
structure ModuleState where
  defaultErrors : List Diagnostic
  defaultWarnings : List Diagnostic
deriving Repr, DecidableEq

/-- State of the two shared arrays when the module is first loaded. -/
def initialState : ModuleState := ⟨[], []⟩

/-! ## ManifestValidator (validation.ts, validateManifest) -/

def idSegChar (c : Char) : Bool := c.isAlpha || c.isDigit || c = '_'

/-- Transcription of the bounded reverse-domain pattern
(caret, letter, 0-63 word chars, then 1 to 10 groups of a dot followed by
1-63 word chars, dollar, case-insensitive).  Since the dot occurs in neither
character class and the pattern is anchored, it is equivalent to this test on
the dot-separated segments. -/
def idRegexTest (s : String) : Bool :=
  match splitOnChar '.' s.data with
  | [] => false
  | first :: rest =>
    (match first with
     | c :: cs => c.isAlpha && cs.all idSegChar && decide (cs.length ≤ 63)
     | [] => false) &&
    decide (1 ≤ rest.length) && decide (rest.length ≤ 10) &&
    rest.all (fun seg =>
      decide (1 ≤ seg.length) && decide (seg.length ≤ 63) &&
      seg.all idSegChar)

/-- Transcription of the semver triple pattern (digits, dot, digits, dot,
digits, anchored): exactly three dot-separated nonempty all-digit segments. -/
def versionRegexTest (s : String) : Bool :=
  match splitOnChar '.' s.data with
  | [a, b, c] =>
    decide (1 ≤ a.length) && a.all Char.isDigit &&
    decide (1 ≤ b.length) && b.all Char.isDigit &&
    decide (1 ≤ c.length) && c.all Char.isDigit
  | _ => false

def dMissingId : Diagnostic :=
  ⟨"manifest-missing-id", "Manifest is missing required field: id", none, none⟩

def dInvalidId : Diagnostic :=
  ⟨"manifest-invalid-id",
   "Manifest id must be in reverse domain format (e.g., com.example.myapp)",
   none, none⟩

def dMissingName : Diagnostic :=
  ⟨"manifest-missing-name", "Manifest is missing required field: name",
   none, none⟩

def dMissingVersion : Diagnostic :=
  ⟨"manifest-missing-version", "Manifest is missing required field: version",
   none, none⟩

def dInvalidVersion : Diagnostic :=
  ⟨"manifest-invalid-version",
   "Manifest version must be in semver format (e.g., 1.0.0)", none, none⟩

def dMissingType : Diagnostic :=
  ⟨"manifest-missing-type", "Manifest is missing required field: type",
   none, none⟩

def dInvalidType : Diagnostic :=
  ⟨"manifest-invalid-type", "Manifest type must be one of: app, plugin, agent",
   none, none⟩

def dMissingDescription : Diagnostic :=
  ⟨"manifest-missing-description",
   "Manifest is missing recommended field: description", none, none⟩

def dMissingAuthor : Diagnostic :=
  ⟨"manifest-missing-author", "Manifest is missing recommended field: author",
   none, none⟩

/-- Errors pushed by validateRequiredFields, in push order (id, name,
version, type).  Each sequential conditional push is one conditional
singleton of the appended list. -/
def requiredFieldErrors (m : Manifest) : List Diagnostic :=
  (if falsyStr m.id then [dMissingId]
   else if ¬ idRegexTest (m.id.getD "") then [dInvalidId] else []) ++
  (if falsyStr m.name then [dMissingName] else []) ++
  (if falsyStr m.version then [dMissingVersion]
   else if ¬ versionRegexTest (m.version.getD "") then [dInvalidVersion]
   else []) ++
  (if m.type = none then [dMissingType]
   else if ¬ (["app", "plugin", "agent"].contains (m.type.getD "")) then
     [dInvalidType]
   else [])

/-- Warnings pushed by validateRecommendedFields, in push order. -/
def recommendedFieldWarnings (m : Manifest) : List Diagnostic :=
  (if falsyStr m.description then [dMissingDescription] else []) ++
  (if m.author = none then [dMissingAuthor] else [])

/-- Embedding of validateManifest.  The result object is a spread copy of
defaultResult, so its errors / warnings alias the module arrays: the pushes
of the two helpers extend the shared arrays, result.valid is recomputed from
the shared errors array, and the manifest object (never written) is handed
back to the caller unchanged. -/
def validateManifest (m : Manifest) (fix : Bool) (st : ModuleState) :
    ValidationResult × Manifest × ModuleState :=
  let errs := st.defaultErrors ++ requiredFieldErrors m
  let warns := st.defaultWarnings ++ recommendedFieldWarnings m
  (⟨errs.length = 0, errs, warns⟩, m, ⟨errs, warns⟩)

/-! ## PermissionValidator (validation.ts, validatePermissions) -/

def dPermissionsEmpty : Diagnostic :=
  ⟨"permissions-empty",
   "No permissions defined. Most apps/plugins require permissions.",
   none, none⟩

def dPermMissingType (i : Nat) : Diagnostic :=
  ⟨"permission-missing-type",
   s!"Permission at index {i} is missing required field: type",
   some s!"permissions[{i}].type", none⟩

def dPermMissingAccess (i : Nat) : Diagnostic :=
  ⟨"permission-missing-access",
   s!"Memory permission at index {i} is missing required field: access",
   some s!"permissions[{i}].access", none⟩

def dPermTooBroad (i : Nat) : Diagnostic :=
  ⟨"permission-too-broad",
   "Global write permission is very broad. Consider using a more specific scope.",
   some s!"permissions[{i}].scope", none⟩

/-- Errors pushed by validateSinglePermission for one permission, in push
order (missing type, then missing access for memory permissions). -/
def singlePermissionErrors (p : Permission) (i : Nat) : List Diagnostic :=
  (if falsyStr p.type then [dPermMissingType i] else []) ++
  (if p.type = some "memory" &&
      (p.access = none || (p.access.getD []).length = 0) then
     [dPermMissingAccess i]
   else [])

/-- Warnings pushed by validateSinglePermission for one permission: the
too-broad warning for a memory permission with write access and an absent,
empty or global scope. -/
def singlePermissionWarnings (p : Permission) (i : Nat) : List Diagnostic :=
  if p.type = some "memory" &&
     ((p.access.getD []).contains "write") &&
     (falsyStr p.scope || p.scope = some "global") then
    [dPermTooBroad i]
  else []

/-- Embedding of validatePermissions, with the same aliasing of the module
arrays as validateManifest. -/
def validatePermissions (m : Manifest) (fix : Bool) (st : ModuleState) :
    ValidationResult × Manifest × ModuleState :=
  let applicable := m.type = some "app" || m.type = some "plugin"
  let perms := m.permissions.getD []
  let errs := st.defaultErrors ++
    (if applicable && ¬ (m.permissions = none || perms.length = 0) then
       perms.enum.flatMap (fun ip => singlePermissionErrors ip.2 ip.1)
     else [])
  let warns := st.defaultWarnings ++
    (if applicable then
       if m.permissions = none || perms.length = 0 then [dPermissionsEmpty]
       else perms.enum.flatMap (fun ip => singlePermissionWarnings ip.2 ip.1)
     else [])
  (⟨errs.length = 0, errs, warns⟩, m, ⟨errs, warns⟩)

/-! ## JSON values and a model of the external JSON reader -/

inductive Json where
  | str (s : String)
  | num (n : Int)
  | bool (b : Bool)
  | null
  | arr (items : List Json)
  | obj (fields : List (String × Json))
deriving Repr

def jsonTruthy : Json → Bool
  | .str s => s ≠ ""
  | .num n => n ≠ 0
  | .bool b => b
  | .null => false
  | .arr _ => true
  | .obj _ => true

def quoteChar : Char := Char.ofNat 34

def backslashChar : Char := Char.ofNat 92

def openBraceChar : Char := Char.ofNat 123

def closeBraceChar : Char := Char.ofNat 125

def isJsonWs (c : Char) : Bool :=
  c = ' ' || c = Char.ofNat 9 || c = Char.ofNat 10 || c = Char.ofNat 13

def skipWs (l : List Char) : List Char := l.dropWhile isJsonWs

def digitsToNat (ds : List Char) : Nat :=
  ds.foldl (fun n c => n * 10 + (c.toNat - 48)) 0

/-- Parse a JSON string body after the opening quote; basic escapes only.
This and the functions below model the external JSON reader (fs-extra
readJson) on the JSON subset the embedded code can encounter: objects,
arrays, strings, integers, booleans and null. -/
def parseStringBody (fuel : Nat) (l : List Char) :
    Except String (String × List Char) :=
  match fuel, l with
  | 0, _ => .error "unexpected end"
  | _, [] => .error "unterminated string"
  | fuel + 1, c :: rest =>
    if c = quoteChar then .ok ("", rest)
    else if c = backslashChar then
      match rest with
      | [] => .error "bad escape"
      | e :: rest2 =>
        let decoded :=
          if e = 'n' then some (Char.ofNat 10)
          else if e = 't' then some (Char.ofNat 9)
          else if e = 'r' then some (Char.ofNat 13)
          else if e = quoteChar then some quoteChar
          else if e = backslashChar then some backslashChar
          else if e = '/' then some '/'
          else none
        match decoded with
        | none => .error "bad escape"
        | some d =>
          match parseStringBody fuel rest2 with
          | .ok (s, r) => .ok (⟨d :: s.data⟩, r)
          | .error msg => .error msg
    else
      match parseStringBody fuel rest with
      | .ok (s, r) => .ok (⟨c :: s.data⟩, r)
      | .error msg => .error msg

/-- Parsing mode of the recursive-descent JSON reader: a value, the fields
of an object, or the items of an array (with a flag for the first one). -/
inductive PMode where
  | value
  | objFields (first : Bool)
  | arrItems (first : Bool)

/-- Recursive-descent JSON parser, structurally recursive on a fuel bound
(one unit per recursion step suffices for inputs shorter than the fuel). -/
def parseRun (fuel : Nat) (mode : PMode) (l : List Char) :
    Except String (Json × List Char) :=
  match fuel with
  | 0 => .error "unexpected end"
  | fuel + 1 =>
    match mode with
    | .value =>
      match skipWs l with
      | [] => .error "unexpected end"
      | c :: rest =>
        if c = quoteChar then
          match parseStringBody (fuel + 1) rest with
          | .ok (s, r) => .ok (.str s, r)
          | .error msg => .error msg
        else if c = openBraceChar then parseRun fuel (.objFields true) rest
        else if c = '[' then parseRun fuel (.arrItems true) rest
        else if c = 't' then
          match rest with
          | 'r' :: 'u' :: 'e' :: r => .ok (.bool true, r)
          | _ => .error "bad literal"
        else if c = 'f' then
          match rest with
          | 'a' :: 'l' :: 's' :: 'e' :: r => .ok (.bool false, r)
          | _ => .error "bad literal"
        else if c = 'n' then
          match rest with
          | 'u' :: 'l' :: 'l' :: r => .ok (.null, r)
          | _ => .error "bad literal"
        else if c = '-' then
          match rest.span Char.isDigit with
          | ([], _) => .error "bad number"
          | (ds, r) => .ok (.num (- (Int.ofNat (digitsToNat ds))), r)
        else if c.isDigit then
          match (c :: rest).span Char.isDigit with
          | (ds, r) => .ok (.num (Int.ofNat (digitsToNat ds)), r)
        else .error "unexpected character"
    | .objFields first =>
      match skipWs l with
      | [] => .error "unterminated object"
      | c :: rest =>
        if c = closeBraceChar then .ok (.obj [], rest)
        else
          let afterSep :=
            if first then .ok (c :: rest)
            else if c = ',' then .ok (skipWs rest)
            else (.error "expected comma" : Except String (List Char))
          match afterSep with
          | .error msg => .error msg
          | .ok l2 =>
            match l2 with
            | [] => .error "unterminated object"
            | q :: rest2 =>
              if q = quoteChar then
                match parseStringBody (fuel + 1) rest2 with
                | .error msg => .error msg
                | .ok (key, r1) =>
                  match skipWs r1 with
                  | ':' :: r2 =>
                    match parseRun fuel .value r2 with
                    | .error msg => .error msg
                    | .ok (v, r3) =>
                      match parseRun fuel (.objFields false) r3 with
                      | .ok (.obj fs, r4) => .ok (.obj ((key, v) :: fs), r4)
                      | .ok _ => .error "impossible"
                      | .error msg => .error msg
                  | _ => .error "expected colon"
              else .error "expected key"
    | .arrItems first =>
      match skipWs l with
      | [] => .error "unterminated array"
      | c :: rest =>
        if c = ']' then .ok (.arr [], rest)
        else
          let afterSep :=
            if first then .ok (c :: rest)
            else if c = ',' then .ok (skipWs rest)
            else (.error "expected comma" : Except String (List Char))
          match afterSep with
          | .error msg => .error msg
          | .ok l2 =>
            match parseRun fuel .value l2 with
            | .error msg => .error msg
            | .ok (v, r1) =>
              match parseRun fuel (.arrItems false) r1 with
              | .ok (.arr vs, r2) => .ok (.arr (v :: vs), r2)
              | .ok _ => .error "impossible"
              | .error msg => .error msg

/-- Model of JSON.parse as used by the external readJson helper. -/
def parseJson (s : String) : Except String Json :=
  match parseRun (s.data.length + 2) .value s.data with
  | .error msg => .error msg
  | .ok (v, rest) =>
    if (skipWs rest).isEmpty then .ok v else .error "trailing characters"

/-! ## Filesystem model -/

/-- A filesystem tree: regular files (with a readability flag and byte
content), directories (association list of child name to node, in readdir
order) and symbolic links (target stored as an absolute path string). -/
inductive FSNode where
  | file (readable : Bool) (content : String)
  | dir (entries : List (String × FSNode))
  | symlink (target : String)
deriving Repr

def lookupEntry : List (String × FSNode) → List Char → Option FSNode
  | [], _ => none
  | (n, node) :: rest, c =>
    if n.data = c then some node else lookupEntry rest c

/-- Resolve a component path against the tree, following symbolic links the
way the kernel does for stat / readdir / open; fuel bounds link chasing (the
counterpart of the ELOOP limit).  The returned node is never a symlink. -/
def resolve : Nat → FSNode → FSNode → List (List Char) → Option FSNode
  | 0, _, _, _ => none
  | fuel + 1, root, .symlink t, comps =>
    if isAbsL t.data then
      match resolve fuel root root (pathComps t) with
      | some n => resolve fuel root n comps
      | none => none
    else none
  | _ + 1, _, .file r c, comps =>
    if comps.isEmpty then some (.file r c) else none
  | _ + 1, _, .dir es, [] => some (.dir es)
  | fuel + 1, root, .dir es, c :: cs =>
    match lookupEntry es c with
    | some child => resolve fuel root child cs
    | none => none

def resolvePath (fuel : Nat) (root : FSNode) (p : String) : Option FSNode :=
  resolve fuel root root (pathComps p)

/-- Model of fs.pathExists / fs.existsSync (follows symlinks). -/
def pathExistsFS (fuel : Nat) (root : FSNode) (p : String) : Bool :=
  (resolvePath fuel root p).isSome

inductive FileKind where
  | file
  | dir
deriving Repr, DecidableEq

/-- Model of fs.stat: the kind of the resolved node, none when stat throws
(target missing or resolution failed). -/
def statKindFS (fuel : Nat) (root : FSNode) (p : String) : Option FileKind :=
  match resolvePath fuel root p with
  | some (.file _ _) => some .file
  | some (.dir _) => some .dir
  | some (.symlink _) => none
  | none => none

/-- Model of fs.readdir: entry names of the resolved directory, in stored
order; none when readdir throws. -/
def readdirFS (fuel : Nat) (root : FSNode) (p : String) :
    Option (List String) :=
  match resolvePath fuel root p with
  | some (.dir es) => some (es.map Prod.fst)
  | _ => none

/-- Model of fs.readFile: errors on a missing, unreadable or non-regular
target. -/
def readFileFS (fuel : Nat) (root : FSNode) (p : String) :
    Except String String :=
  match resolvePath fuel root p with
  | some (.file true c) => .ok c
  | some (.file false _) => .error "EACCES"
  | some (.dir _) => .error "EISDIR"
  | some (.symlink _) => .error "ELOOP"
  | none => .error "ENOENT"

/-- Model of fs-extra readJson: read then parse. -/
def readJsonFS (fuel : Nat) (root : FSNode) (p : String) :
    Except String Json :=
  match readFileFS fuel root p with
  | .error e => .error e
  | .ok s => parseJson s

inductive DirentKind where
  | file
  | dir
  | symlink
deriving Repr, DecidableEq

def direntKindOf : FSNode → DirentKind
  | .file _ _ => .file
  | .dir _ => .dir
  | .symlink _ => .symlink

/-- Model of fs.readdir with file types: names paired with the kind of the
entry itself (a symlink entry reports symlink; its isDirectory() is false,
as for Node Dirent values). -/
def readdirEntsFS (fuel : Nat) (root : FSNode) (p : String) :
    Option (List (String × DirentKind)) :=
  match resolvePath fuel root p with
  | some (.dir es) => some (es.map (fun e => (e.1, direntKindOf e.2)))
  | _ => none

def exceptOk {ε α : Type} : Except ε α → Bool
  | .ok _ => true
  | .error _ => false

/-! ## SecurityScanner (validation.ts, validateSecurity) -/

/-- Object.entries of a parsed JSON value, as iterated by validateSecurity.
For an object it is the field list; for an array the index-keyed elements.
For a primitive string JS would yield its single characters, none of which
can contain the five-character sudo token, and for other primitives nothing:
both are modelled as the empty list. -/
def jsonEntries : Json → List (String × Json)
  | .obj fs => fs
  | .arr xs => (xs.enum.map (fun iv => (toString iv.1, iv.2)))
  | _ => []

def dSudoScript (name : String) : Diagnostic :=
  ⟨"security-sudo-in-script",
   s!"Script \"{name}\" contains sudo command which is a security risk",
   some s!"package.json > scripts.{name}", none⟩

/-- Errors pushed by the script scan of validateSecurity for a parsed
package.json value, in entry order. -/
def sudoScriptErrors (pkg : Json) : List Diagnostic :=
  match pkg with
  | .obj fs =>
    match fs.lookup "scripts" with
    | some scripts =>
      if jsonTruthy scripts then
        (jsonEntries scripts).flatMap (fun nv =>
          match nv.2 with
          | .str s => if strContainsSub s "sudo " then [dSudoScript nv.1]
                      else []
          | _ => [])
      else []
    | none => []
  | _ => []

/-- Embedding of validateSecurity.  The readJson call is not guarded by any
try / catch, so a package.json that exists but fails to read or parse makes
the validator reject (throw); otherwise the script scan pushes onto the
shared errors array. -/
def validateSecurity (fuel : Nat) (root : FSNode) (projectDir : String)
    (st : ModuleState) : Except String (ValidationResult × ModuleState) :=
  let packageJsonPath := joinPath projectDir "package.json"
  if pathExistsFS fuel root packageJsonPath then
    match readJsonFS fuel root packageJsonPath with
    | .error e => .error e
    | .ok pkg =>
      let errs := st.defaultErrors ++ sudoScriptErrors pkg
      .ok (⟨errs.length = 0, errs, st.defaultWarnings⟩, ⟨errs, st.defaultWarnings⟩)
  else
    .ok (⟨st.defaultErrors.length = 0, st.defaultErrors, st.defaultWarnings⟩,
         st)

/-! ## SecureFileWalker (validation.ts, findFiles / safeReadFile /
safePathExists) -/

/-- The for loop of findFiles over the entry names, with the recursive call
and the stat operation passed in as functions: skip dot entries, build and
check the joined path, stat it (a stat error skips the entry), recurse into
directories and collect files matching one of the extensions. -/
def findFilesLoop (recurse : String → List String)
    (statF : String → Option FileKind) (normalizedDir : String)
    (extensions : List String) : List String → List String
  | [] => []
  | item :: rest =>
    (if strStartsWith item "." then []
     else if ¬ strStartsWith (joinPath normalizedDir item) normalizedDir
       then []
     else
       match statF (joinPath normalizedDir item) with
       | none => []
       | some .dir => recurse (joinPath normalizedDir item)
       | some .file =>
         if extensions.any (fun ext => strEndsWith item ext) then
           [joinPath normalizedDir item]
         else []) ++
    findFilesLoop recurse statF normalizedDir extensions rest

/-- Embedding of findFiles: normalize the directory, require it absolute and
existing, read its entries and run the loop over them.  Fuel bounds the
recursion depth (the real recursion is bounded by the link-resolution limit
of stat; a fuel of zero yields nothing, which only cuts runs deeper than the
chosen bound). -/
def findFiles (fuel : Nat) (root : FSNode) (dir : String)
    (extensions : List String) : List String :=
  match fuel with
  | 0 => []
  | fuel + 1 =>
    if ¬ isAbsolutePath (normalizePath dir) then []
    else if ¬ pathExistsFS (fuel + 1) root (normalizePath dir) then []
    else
      match readdirFS (fuel + 1) root (normalizePath dir) with
      | none => []
      | some items =>
        findFilesLoop (fun p => findFiles fuel root p extensions)
          (statKindFS (fuel + 1) root) (normalizePath dir) extensions items

/-- Embedding of safeReadFile: normalize both paths, require the file path
to be string-prefixed by the base, require existence, and read; every
failure is reported as null (none). -/
def safeReadFile (fuel : Nat) (root : FSNode) (filePath baseDir : String) :
    Option String :=
  let normalizedFilePath := normalizePath filePath
  let normalizedBaseDir := normalizePath baseDir
  if ¬ strStartsWith normalizedFilePath normalizedBaseDir then none
  else if ¬ pathExistsFS fuel root normalizedFilePath then none
  else
    match readFileFS fuel root normalizedFilePath with
    | .ok c => some c
    | .error _ => none

/-- Embedding of safePathExists. -/
def safePathExists (fuel : Nat) (root : FSNode) (targetPath baseDir : String) :
    Bool :=
  let normalizedPath := normalizePath targetPath
  let normalizedBaseDir := normalizePath baseDir
  if ¬ strStartsWith normalizedPath normalizedBaseDir then false
  else pathExistsFS fuel root normalizedPath

/-! ## AccessibilityScanner (validation.ts, validateAccessibility) -/

def isJsWordChar (c : Char) : Bool := c.isAlpha || c.isDigit || c = '_'

def isJsRegexWs (c : Char) : Bool :=
  c = ' ' || c = Char.ofNat 9 || c = Char.ofNat 10 || c = Char.ofNat 13 ||
  c = Char.ofNat 11 || c = Char.ofNat 12 || c = Char.ofNat 160

def lowerList (l : List Char) : List Char := l.map Char.toLower

/-- Occurrence of the four characters a l t = at position q of s, with a
word boundary before the a (case-insensitively): the lookahead body of the
image regex. -/
def altEqAt (s : List Char) (q : Nat) : Bool :=
  lowerList ((s.drop q).take 4) = ['a', 'l', 't', '='] &&
  (q = 0 || ! (match s.get? (q - 1) with
               | some c => isJsWordChar c
               | none => false))

/-- Match of the image regex (img tag with whitespace and no alt attribute
before the closing angle bracket) at a given start position.  The regex
less-than i m g, one-or-more whitespace, negative lookahead for word-boundary
a l t = among non-gt characters, any non-gt characters, optional slash,
greater-than (case-insensitive) matches at position i exactly when: the tag
opener is at i, at least one whitespace follows, some gt character follows,
and no word-boundary a l t = occurs between the end of the whitespace run
and that first gt; the backtracking choices of the whitespace quantifier all
see the same occurrences because the a of alt is not whitespace. -/
def imgMatchAt (s : List Char) (i : Nat) : Bool :=
  lowerList ((s.drop i).take 4) = ['<', 'i', 'm', 'g'] &&
  (match s.get? (i + 4) with
   | some c => isJsRegexWs c
   | none => false) &&
  (let wsLen := ((s.drop (i + 4)).takeWhile isJsRegexWs).length
   let pos := i + 4 + wsLen
   let seg := (s.drop pos).takeWhile (fun c => c ≠ '>')
   (pos + seg.length < s.length) &&
   ((List.range seg.length).all (fun k => ! altEqAt s (pos + k))))

/-- Embedding of the test of the image regex against a file content: a match
at some position of the string. -/
def imgTagWithoutAltTest (content : String) : Bool :=
  (List.range content.data.length).any (fun i => imgMatchAt content.data i)

def dMissingAlt (relPath : String) : Diagnostic :=
  ⟨"a11y-missing-alt", "Found image tag without alt attribute",
   some relPath, none⟩

/-- The body of the for loop of validateAccessibility over the found files:
skip files outside the project directory, read through safeReadFile (null
and the empty content are falsy and skip the file with no diagnostic), and
push a warning for a matching file. -/
def a11yScanFiles (fuel : Nat) (root : FSNode) (normalizedProjectDir : String)
    (files : List String) (warns : List Diagnostic) : List Diagnostic :=
  match files with
  | [] => warns
  | file :: rest =>
    let warns2 :=
      if ¬ strStartsWith file normalizedProjectDir then warns
      else
        match safeReadFile fuel root file normalizedProjectDir with
        | none => warns
        | some content =>
          if content = "" then warns
          else if imgTagWithoutAltTest content then
            warns ++ [dMissingAlt (relativePath normalizedProjectDir file)]
          else warns
    a11yScanFiles fuel root normalizedProjectDir rest warns2

/-- Embedding of validateAccessibility.  All filesystem failures inside the
body are swallowed by the helpers (returned as null / empty results), so the
outer catch never fires and the errors array is never pushed to; only
warnings are added. -/
def validateAccessibility (fuel : Nat) (root : FSNode) (projectDir : String)
    (st : ModuleState) : ValidationResult × ModuleState :=
  let normalizedProjectDir := normalizePath projectDir
  let srcDir := joinPath normalizedProjectDir "src"
  let warns :=
    if safePathExists fuel root srcDir normalizedProjectDir then
      let files := findFiles fuel root srcDir [".tsx", ".jsx"]
      a11yScanFiles fuel root normalizedProjectDir files st.defaultWarnings
    else st.defaultWarnings
  (⟨st.defaultErrors.length = 0, st.defaultErrors, warns⟩,
   ⟨st.defaultErrors, warns⟩)

/-! ## TemplateMaterializer (init.ts, IGNORED_FILES / secureCopyTemplate) -/

/-- The fixed list of entry names never copied to the target project. -/
def IGNORED_FILES : List String :=
  [".git", ".DS_Store", "node_modules", ".env", ".env.local",
   ".env.development", ".env.test", ".env.production", ".env.example",
   "secrets.json", "credentials.json"]

/-- A node of the materialized target tree. -/
inductive CopyNode where
  | file (content : String)
  | dir (entries : List (String × CopyNode))
deriving Repr

/-- Model of fs.copyFile: resolve the source (following symlinks) and take
the byte content; a missing, unreadable or directory source throws. -/
def copyFileFS (fuel : Nat) (root : FSNode) (p : String) :
    Except String String :=
  readFileFS fuel root p

/-- The for loop of secureCopyTemplate over the remaining entries, with the
recursive call and the file copy passed in as functions: skip names in the
ignored list, recurse into directory entries (a symlink entry reports
isDirectory() false and falls to the copyFile branch), copy everything else
byte-for-byte; the first failure propagates, aborting the whole copy,
exactly as the sequential awaits do. -/
def copyEntriesWith (recurse : String → Except String (List (String × CopyNode)))
    (copyF : String → Except String String) (src : String) :
    List (String × DirentKind) → Except String (List (String × CopyNode))
  | [] => .ok []
  | (name, kind) :: rest =>
    if IGNORED_FILES.contains name then copyEntriesWith recurse copyF src rest
    else
      let srcPath := joinPath src name
      match kind with
      | .dir =>
        match recurse srcPath with
        | .error er => .error er
        | .ok sub =>
          match copyEntriesWith recurse copyF src rest with
          | .error er => .error er
          | .ok out => .ok ((name, .dir sub) :: out)
      | _ =>
        match copyF srcPath with
        | .error er => .error er
        | .ok content =>
          match copyEntriesWith recurse copyF src rest with
          | .error er => .error er
          | .ok out => .ok ((name, .file content) :: out)

/-- Embedding of secureCopyTemplate, producing the materialized tree for a
fresh target directory.  readdir-with-file-types is unguarded, so a failing
readdir throws; an empty entry list only logs a warning and yields
nothing. -/
def secureCopyTemplate (fuel : Nat) (root : FSNode) (src : String) :
    Except String (List (String × CopyNode)) :=
  match fuel with
  | 0 => .error "fuel"
  | fuel + 1 =>
    match readdirEntsFS (fuel + 1) root src with
    | none => .error "ENOENT"
    | some entries =>
      copyEntriesWith (fun p => secureCopyTemplate fuel root p)
        (copyFileFS fuel root) src entries

/-! ## DiagnosticAggregator (validate.ts, runAllValidations /
consolidateResults) -/

structure AllResults where
  manifestResult : ValidationResult
  permissionsResult : ValidationResult
  securityResult : ValidationResult
  accessibilityResult : ValidationResult
deriving Repr, DecidableEq

def withCategory (cat : String) (d : Diagnostic) : Diagnostic :=
  { d with category := some cat }

/-- Embedding of consolidateResults: the combined validity is the
conjunction of the four validities, and each diagnostic list is the
concatenation, in the fixed order manifest, permissions, security,
accessibility, of the four lists with a category field naming the source
validator spread onto every diagnostic. -/
def consolidateResults (r : AllResults) : ValidationResult :=
  ⟨r.manifestResult.valid && r.permissionsResult.valid &&
     r.securityResult.valid && r.accessibilityResult.valid,
   r.manifestResult.errors.map (withCategory "manifest") ++
     r.permissionsResult.errors.map (withCategory "permissions") ++
     r.securityResult.errors.map (withCategory "security") ++
     r.accessibilityResult.errors.map (withCategory "accessibility"),
   r.manifestResult.warnings.map (withCategory "manifest") ++
     r.permissionsResult.warnings.map (withCategory "permissions") ++
     r.securityResult.warnings.map (withCategory "security") ++
     r.accessibilityResult.warnings.map (withCategory "accessibility")⟩

/-- Embedding of runAllValidations: the four validators run in order,
threading the shared module arrays; a rejection of validateSecurity
propagates and aborts the run.  The errors / warnings fields of all four
returned results alias the same two module arrays, so by the time any caller
inspects them they hold the final accumulated lists, while each valid field
keeps the snapshot taken when its validator finished. -/
def runAllValidations (fuel : Nat) (root : FSNode) (m : Manifest)
    (projectDir : String) (fix : Bool) (st : ModuleState) :
    Except String (AllResults × Manifest × ModuleState) :=
  match validateManifest m fix st with
  | (manifestResult, m1, st1) =>
    match validatePermissions m1 fix st1 with
    | (permissionsResult, m2, st2) =>
      match validateSecurity fuel root projectDir st2 with
      | .error e => .error e
      | .ok (securityResult, st3) =>
        match validateAccessibility fuel root projectDir st3 with
        | (accessibilityResult, st4) =>
          let live : ValidationResult → ValidationResult := fun r =>
            ⟨r.valid, st4.defaultErrors, st4.defaultWarnings⟩
          .ok (⟨live manifestResult, live permissionsResult,
                live securityResult, live accessibilityResult⟩, m2, st4)

/-- One aggregated validation run as performed by the validate command with
json output: run the four validators, then consolidate (the consolidation
spread-copies every diagnostic, so the consolidated result is a snapshot,
decoupled from the shared arrays). -/
def runAggregated (fuel : Nat) (root : FSNode) (m : Manifest)
    (projectDir : String) (fix : Bool) (st : ModuleState) :
    Except String (ValidationResult × Manifest × ModuleState) :=
  match runAllValidations fuel root m projectDir fix st with
  | .error e => .error e
  | .ok (r, m2, st4) => .ok (consolidateResults r, m2, st4)

/-! ## Accessors for stating closed theorems about Except-valued runs -/

def aggConsolidated :
    Except String (ValidationResult × Manifest × ModuleState) →
    Option ValidationResult
  | .ok (r, _, _) => some r
  | .error _ => none

def aggState :
    Except String (ValidationResult × Manifest × ModuleState) → ModuleState
  | .ok (_, _, st) => st
  | .error _ => initialState

def allResultsOf :
    Except String (AllResults × Manifest × ModuleState) → Option AllResults
  | .ok (r, _, _) => some r
  | .error _ => none

/-! ## Concrete inputs used by the claim theorems -/

/-- A manifest with every field missing. -/
def emptyManifest : Manifest := {}

/-- A project root containing a single empty project directory. -/
def projEmptyFS : FSNode := .dir [("proj", .dir [])]

/-- A project whose package.json exists but holds malformed JSON. -/
def pkgMalformedFS : FSNode :=
  .dir [("proj", .dir [("package.json", .file true "not json")])]

/-- A tree with a real directory d and a symbolic link to it. -/
def symlinkFS : FSNode :=
  .dir [("r", .dir [("d", .dir [("f.tsx", .file true "x")]),
                    ("link", .symlink "/r/d")])]

/-- A tree holding a directory a and, next to it, a file ab whose name
extends the directory name as a string. -/
def siblingFS : FSNode := .dir [("a", .dir []), ("ab", .file true "secret")]

/-- A template with a dot file outside the ignored list, two sensitive
files, a regular file and a subdirectory with a dependency cache. -/
def templateFS : FSNode :=
  .dir [("tpl", .dir
    [(".customrc", .file true "x"),
     (".env", .file true "secret"),
     ("secrets.json", .file true "s"),
     ("app.js", .file true "console"),
     ("sub", .dir [("inner.txt", .file true "i"),
                   ("node_modules", .dir [("dep.js", .file true "d")])])])]

/-- A project whose src holds an unreadable UI file followed by a readable
one with an image tag lacking an alt attribute. -/
def a11yFS : FSNode :=
  .dir [("p", .dir [("src", .dir
    [("bad.tsx", .file false "<img src=0>"),
     ("ok.tsx", .file true "<img src=1>")])])]

/-- A memory permission with write access and no scope. -/
def broadPermission : Permission :=
  { type := some "memory", access := some ["write"] }

/-- An agent manifest with one error (invalid id) and no warnings. -/
def agentOneErrorManifest : Manifest :=
  { id := some "x", name := some "N", version := some "1.0.0",
    type := some "agent", description := some "d",
    author := some ⟨"a", none, none⟩ }

/-- First aggregated run on the empty manifest and empty project. -/
def firstRun : Except String (ValidationResult × Manifest × ModuleState) :=
  runAggregated 20 projEmptyFS emptyManifest "/proj" false initialState

/-- Second aggregated run, in the same process, from the module state the
first run left behind. -/
def secondRun : Except String (ValidationResult × Manifest × ModuleState) :=
  runAggregated 20 projEmptyFS emptyManifest "/proj" false (aggState firstRun)

/-! ## Predicates and further concrete inputs used by the claim theorems -/

/-- Whether the consolidated errors list of a successful run equals the
plain concatenation of the four sub-results' errors lists (vacuously true
for a rejected run). -/
def plainConcatMatches :
    Except String (AllResults × Manifest × ModuleState) → Bool
  | .ok (r, _, _) => decide ((consolidateResults r).errors =
      r.manifestResult.errors ++ r.permissionsResult.errors ++
      r.securityResult.errors ++ r.accessibilityResult.errors)
  | .error _ => true

/-- The four sub-results of the concrete run used by the C5 witness. -/
def c5RunInput : Except String (AllResults × Manifest × ModuleState) :=
  runAllValidations 20 projEmptyFS agentOneErrorManifest "/proj" false
    initialState

def c5RunResults : AllResults :=
  match c5RunInput with
  | .ok (r, _, _) => r
  | .error _ => ⟨⟨true, [], []⟩, ⟨true, [], []⟩, ⟨true, [], []⟩,
      ⟨true, [], []⟩⟩

def c5RunManifest : Manifest :=
  match c5RunInput with
  | .ok (_, m, _) => m
  | .error _ => {}

def c5RunState : ModuleState :=
  match c5RunInput with
  | .ok (_, _, s) => s
  | .error _ => initialState

/-- A template containing a regular file, a symlink to it and a real
subdirectory. -/
def symlinkTplFS : FSNode :=
  .dir [("t2", .dir [("real.txt", .file true "r"),
                     ("link.txt", .symlink "/t2/real.txt"),
                     ("d", .dir [("x.txt", .file true "x")])])]

/-- A well-formed path component: nonempty, slash-free, and not one of the
two dot components (the shape of every component of a normalized absolute
path, and of every directory entry name that survives the dot skip). -/
def goodPart (c : List Char) : Prop :=
  c ≠ [] ∧ '/' ∉ c ∧ c ≠ dotPart ∧ c ≠ dotDotPart

/-- All components of a list are well formed. -/
def goodParts (cs : List (List Char)) : Prop := ∀ x ∈ cs, goodPart x

/-- Well-formed entry names throughout a filesystem tree: every directory
entry name is nonempty and slash-free, the invariant every real filesystem
satisfies (readdir can never return an empty name or one containing the
separator). -/
inductive NamesOk : FSNode → Prop where
  | file (r : Bool) (c : String) : NamesOk (.file r c)
  | symlink (t : String) : NamesOk (.symlink t)
  | dir (es : List (String × FSNode))
      (hn : ∀ e ∈ es, e.1.data ≠ [] ∧ '/' ∉ e.1.data)
      (hrec : ∀ e ∈ es, NamesOk e.2) : NamesOk (.dir es)

/-! ## Claim theorems -/

set_option maxRecDepth 20000

/-- Claim C1 (code bug): the aggregated validation is not idempotent and the
validator results are not fresh.  The spread copy of the module-level
defaultResult shares its errors / warnings arrays across every validator
call, so: within one run the permissions sub-result already contains the
manifest diagnostics, the first consolidated run on a manifest with four
manifest errors reports sixteen error entries, and an identical second run
in the same process reports thirty-two, differing from the first. -/
theorem c1_shared_default_result_accumulates :
    (aggConsolidated firstRun).map (fun r => r.errors.length) = some 16 ∧
    (aggConsolidated secondRun).map (fun r => r.errors.length) = some 32 ∧
    aggConsolidated firstRun ≠ aggConsolidated secondRun ∧
    (allResultsOf (runAllValidations 20 projEmptyFS emptyManifest "/proj"
        false initialState)).map
      (fun r => decide (dMissingId ∈ r.permissionsResult.errors)) =
      some true := by
  refine ⟨by decide, by decide, by decide, by decide⟩

/-- Claim C2, counterexample: safeReadFile reads a file outside the root.
With base directory a, the sibling file ab passes the string-prefix
containment check (its normalized path is string-prefixed by the normalized
base) although it is not inside the base directory, and its content is
returned. -/
theorem c2_safeReadFile_reads_outside_root :
    safeReadFile 20 siblingFS "/ab" "/a" = some "secret" ∧
    strStartsWith (normalizePath "/ab") (normalizePath "/a") = true ∧
    pathWithin "/a" "/ab" = false := by
  refine ⟨by decide, by decide, by decide⟩

/-- Claim C3, counterexample: a project directory whose package.json exists
but is malformed makes validateSecurity reject (the readJson call is not
guarded), and the rejection aborts the whole aggregated run. -/
theorem c3_validateSecurity_throws_on_malformed_package_json :
    exceptOk (validateSecurity 20 pkgMalformedFS "/proj" initialState) =
      false ∧
    exceptOk (runAllValidations 20 pkgMalformedFS emptyManifest "/proj" false
      initialState) = false := by
  refine ⟨by decide, by decide⟩

/-- Claim C4, counterexample: findFiles stats entries following symbolic
links, so a symlinked directory is traversed and the file beneath it is
yielded (the entry link is reported as a symlink by the directory listing,
yet the walk yields a path beneath it). -/
theorem c4_findFiles_traverses_symlinked_dir :
    readdirEntsFS 20 symlinkFS "/r" =
      some [("d", .dir), ("link", .symlink)] ∧
    findFiles 20 symlinkFS "/r" [".tsx"] =
      ["/r/d/f.tsx", "/r/link/f.tsx"] := by
  refine ⟨by decide, by decide⟩


/-- Claim C5, counterexample: the consolidated errors list is not exactly
the concatenation of the four sub-results' errors lists, because
consolidateResults spreads a category field onto every diagnostic; on a
manifest with one error the run succeeds and the two lists differ. -/
theorem c5_consolidated_not_plain_concatenation :
    plainConcatMatches (runAllValidations 20 projEmptyFS
      agentOneErrorManifest "/proj" false initialState) = false ∧
    exceptOk (runAllValidations 20 projEmptyFS agentOneErrorManifest "/proj"
      false initialState) = true := by
  refine ⟨by decide, by decide⟩

/-- Claim C6, counterexample: the template copy does not skip every entry
whose name starts with a dot — only the names in IGNORED_FILES are skipped.
Copying the concrete template keeps the dot file .customrc (while .env,
secrets.json and node_modules are skipped and other files are copied with
identical content). -/
theorem c6_dotfile_copied :
    secureCopyTemplate 20 templateFS "/tpl" =
      .ok [(".customrc", .file "x"), ("app.js", .file "console"),
           ("sub", .dir [("inner.txt", .file "i")])] := by rfl

/-- Claim C7, counterexample: an unreadable entry produces no diagnostic at
all.  In a src directory whose first file is unreadable, the returned result
contains no diagnostic naming the failing path — the scan continues with the
readable sibling, which is reported, and the errors list stays empty. -/
theorem c7_unreadable_entry_unreported :
    (validateAccessibility 20 a11yFS "/p" initialState).1 =
      ⟨true, [], [dMissingAlt "src/ok.tsx"]⟩ := by decide

/-- Claim C8 (confirmed): a memory permission with write access and an
omitted (or global) scope produces, at any index, exactly one
permission-too-broad warning carrying the permissions index scope path and
zero errors; for an applicable manifest holding such a permission,
validatePermissions adds exactly that warning and no error. -/
theorem c8_memory_write_without_scope_single_warning
    (p : Permission) (hty : p.type = some "memory")
    (hacc : p.access = some ["write"])
    (hsc : p.scope = none ∨ p.scope = some "global") :
    (∀ i, singlePermissionErrors p i = [] ∧
      singlePermissionWarnings p i = [dPermTooBroad i]) ∧
    (∀ (m : Manifest) (fix : Bool) (st : ModuleState),
      (m.type = some "app" ∨ m.type = some "plugin") →
      m.permissions = some [p] →
      (validatePermissions m fix st).1.errors = st.defaultErrors ∧
      (validatePermissions m fix st).1.warnings =
        st.defaultWarnings ++ [dPermTooBroad 0]) := by
  have hw : singlePermissionWarnings p 0 = [dPermTooBroad 0] := by
    rcases hsc with h | h <;>
      simp [singlePermissionWarnings, hty, hacc, h, falsyStr]
  constructor
  · intro i
    constructor
    · simp [singlePermissionErrors, hty, hacc, falsyStr]
    · rcases hsc with h | h <;>
        simp [singlePermissionWarnings, hty, hacc, h, falsyStr]
  · intro m fix st happ hperm
    have he : singlePermissionErrors p 0 = [] := by
      simp [singlePermissionErrors, hty, hacc, falsyStr]
    rcases happ with h | h <;>
      simp [validatePermissions, h, hperm, List.enum, he, hw]

/-- Witness for claim C8 at the concrete broad permission. -/
theorem c8_memory_write_without_scope_single_warning_witness :
    singlePermissionErrors broadPermission 0 = [] ∧
    singlePermissionWarnings broadPermission 0 = [dPermTooBroad 0] := by
  have h := c8_memory_write_without_scope_single_warning broadPermission
    rfl rfl (Or.inl rfl)
  exact h.1 0

/-- Claim C10 (confirmed): missingness is decided asymmetrically.  The type
field is reported missing only when strictly undefined, so an empty-string
type gets manifest-invalid-type; the id, name and version fields use falsy
checks, so an empty string there gets the corresponding missing code and
never the invalid one. -/
theorem c10_missing_field_asymmetry (m : Manifest) :
    (m.type = some "" → dInvalidType ∈ requiredFieldErrors m ∧
      dMissingType ∉ requiredFieldErrors m) ∧
    (m.id = some "" → dMissingId ∈ requiredFieldErrors m ∧
      dInvalidId ∉ requiredFieldErrors m) ∧
    (m.name = some "" → dMissingName ∈ requiredFieldErrors m) ∧
    (m.version = some "" → dMissingVersion ∈ requiredFieldErrors m ∧
      dInvalidVersion ∉ requiredFieldErrors m) := by
  refine ⟨fun h => ?_, fun h => ?_, fun h => ?_, fun h => ?_⟩ <;>
    · simp only [requiredFieldErrors, h, falsyStr, List.mem_append]
      split_ifs <;> simp_all <;> decide

/-- Witness for claim C10 at a manifest whose four fields are all the empty
string. -/
theorem c10_missing_field_asymmetry_witness :
    dInvalidType ∈ requiredFieldErrors
      { id := some "", name := some "", version := some "",
        type := some "" } ∧
    dMissingId ∈ requiredFieldErrors
      { id := some "", name := some "", version := some "",
        type := some "" } := by
  have h := c10_missing_field_asymmetry
    { id := some "", name := some "", version := some "", type := some "" }
  exact ⟨(h.1 rfl).1, (h.2.1 rfl).1⟩

/-- Claim C9 (confirmed): validateManifest and validatePermissions never
write any field of the manifest object; for both values of the fix flag the
manifest handed back to the caller is the argument unchanged. -/
theorem c9_validators_leave_manifest_unmodified
    (m : Manifest) (fix : Bool) (st : ModuleState) :
    (validateManifest m fix st).2.1 = m ∧
    (validatePermissions m fix st).2.1 = m :=
  ⟨rfl, rfl⟩

/-- The rejection condition of validateSecurity is exactly a package.json
that exists but fails to read or parse; the outcome does not depend on the
module state. -/
theorem validateSecurity_ok_char (fuel : Nat) (root : FSNode) (dir : String)
    (st : ModuleState) :
    exceptOk (validateSecurity fuel root dir st) =
      ! (pathExistsFS fuel root (joinPath dir "package.json") &&
         ! exceptOk (readJsonFS fuel root (joinPath dir "package.json"))) := by
  unfold validateSecurity
  by_cases hp : pathExistsFS fuel root (joinPath dir "package.json")
  · cases hq : readJsonFS fuel root (joinPath dir "package.json") <;>
      simp [hp, hq, exceptOk]
  · simp [hp, exceptOk]

/-- Claim C3 (amended): validateManifest, validatePermissions and
validateAccessibility always return a result; the aggregated run rejects
exactly when package.json exists but reading or parsing it fails inside
validateSecurity, whose unguarded readJson call is the only exception
source. -/
theorem c3_throw_characterization (fuel : Nat) (root : FSNode) (m : Manifest)
    (dir : String) (fix : Bool) (st : ModuleState) :
    exceptOk (validateSecurity fuel root dir st) =
      ! (pathExistsFS fuel root (joinPath dir "package.json") &&
         ! exceptOk (readJsonFS fuel root (joinPath dir "package.json"))) ∧
    exceptOk (runAllValidations fuel root m dir fix st) =
      ! (pathExistsFS fuel root (joinPath dir "package.json") &&
         ! exceptOk (readJsonFS fuel root (joinPath dir "package.json"))) := by
  refine ⟨validateSecurity_ok_char fuel root dir st, ?_⟩
  unfold runAllValidations
  rw [← validateSecurity_ok_char fuel root dir
    ((validatePermissions (validateManifest m fix st).2.1 fix
      (validateManifest m fix st).2.2).2.2)]
  cases hs : validateSecurity fuel root dir
      ((validatePermissions (validateManifest m fix st).2.1 fix
        (validateManifest m fix st).2.2).2.2) with
  | error e => simp [hs, exceptOk]
  | ok v => simp [hs, exceptOk]

/-- The accessibility scan loop only ever appends missing-alt warnings to
the list it is given. -/
theorem a11yScanFiles_append (fuel : Nat) (root : FSNode) (nd : String)
    (files : List String) :
    ∀ warns, ∃ d, a11yScanFiles fuel root nd files warns = warns ++ d ∧
      ∀ w ∈ d, w.code = "a11y-missing-alt" := by
  induction files with
  | nil =>
    intro warns
    exact ⟨[], by simp [a11yScanFiles], by simp⟩
  | cons file rest ih =>
    intro warns
    by_cases hin : strStartsWith file nd
    · cases hread : safeReadFile fuel root file nd with
      | none =>
        obtain ⟨d, hd, hcode⟩ := ih warns
        exact ⟨d, by simpa [a11yScanFiles, hin, hread] using hd, hcode⟩
      | some content =>
        by_cases hempty : content = ""
        · obtain ⟨d, hd, hcode⟩ := ih warns
          exact ⟨d, by simpa [a11yScanFiles, hin, hread, hempty] using hd,
            hcode⟩
        · by_cases himg : imgTagWithoutAltTest content
          · obtain ⟨d, hd, hcode⟩ := ih (warns ++ [dMissingAlt
              (relativePath nd file)])
            refine ⟨dMissingAlt (relativePath nd file) :: d, ?_, ?_⟩
            · simpa [a11yScanFiles, hin, hread, hempty, himg] using hd
            · intro w hw
              rcases List.mem_cons.mp hw with h | h
              · subst h; rfl
              · exact hcode w h
          · obtain ⟨d, hd, hcode⟩ := ih warns
            exact ⟨d,
              by simpa [a11yScanFiles, hin, hread, hempty, himg] using hd,
              hcode⟩
    · obtain ⟨d, hd, hcode⟩ := ih warns
      exact ⟨d, by simpa [a11yScanFiles, hin] using hd, hcode⟩

/-- Claim C7 (amended): an unreadable entry never aborts the accessibility
scan, but it is not reported either: the returned result's errors list is
the untouched shared errors array, and everything the scan adds to the
warnings is an a11y-missing-alt finding — no diagnostic records a read or
stat failure. -/
theorem c7_scan_continues_without_failure_diagnostic (fuel : Nat)
    (root : FSNode) (dir : String) (st : ModuleState) :
    (validateAccessibility fuel root dir st).1.errors = st.defaultErrors ∧
    ∃ d, (validateAccessibility fuel root dir st).1.warnings =
        st.defaultWarnings ++ d ∧
      ∀ w ∈ d, w.code = "a11y-missing-alt" := by
  refine ⟨rfl, ?_⟩
  unfold validateAccessibility
  by_cases hsrc : safePathExists fuel root
      (joinPath (normalizePath dir) "src") (normalizePath dir)
  · simpa [hsrc] using a11yScanFiles_append fuel root (normalizePath dir)
      (findFiles fuel root (joinPath (normalizePath dir) "src")
        [".tsx", ".jsx"]) st.defaultWarnings
  · exact ⟨[], by simp [hsrc], by simp⟩

/-- Characterization of the copy loop: on success the produced names are
exactly the entry names outside the ignored list in order, every produced
file holds the byte content delivered by the copy function on its source
path, and every produced directory comes from an entry whose dirent kind is
a real directory, recursed through the given recursion function. -/
theorem copyEntriesWith_spec
    (recurse : String → Except String (List (String × CopyNode)))
    (copyF : String → Except String String) (src : String) :
    ∀ (entries : List (String × DirentKind))
      (out : List (String × CopyNode)),
      copyEntriesWith recurse copyF src entries = .ok out →
      out.map Prod.fst =
        (entries.map Prod.fst).filter
          (fun n => ! IGNORED_FILES.contains n) ∧
      (∀ nm c, (nm, CopyNode.file c) ∈ out →
        copyF (joinPath src nm) = .ok c) ∧
      (∀ nm sub, (nm, CopyNode.dir sub) ∈ out →
        (nm, DirentKind.dir) ∈ entries ∧
        recurse (joinPath src nm) = .ok sub) := by
  intro entries
  induction entries with
  | nil =>
    intro out h
    simp only [copyEntriesWith] at h
    cases h
    exact ⟨rfl, by simp, by simp⟩
  | cons e rest ih =>
    intro out h
    rcases e with ⟨name, kind⟩
    by_cases hig : IGNORED_FILES.contains name
    · rw [copyEntriesWith, if_pos hig] at h
      obtain ⟨h1, h2, h3⟩ := ih out h
      refine ⟨?_, h2, fun nm sub hm =>
        ⟨List.mem_cons_of_mem _ (h3 nm sub hm).1, (h3 nm sub hm).2⟩⟩
      have hmem : name ∈ IGNORED_FILES := by simpa using hig
      simpa [List.filter_cons, hmem] using h1
    · rw [copyEntriesWith, if_neg hig] at h
      cases kind with
      | dir =>
        simp only at h
        cases hsc : recurse (joinPath src name) with
        | error er => rw [hsc] at h; cases h
        | ok sub =>
          rw [hsc] at h
          cases hrest : copyEntriesWith recurse copyF src rest with
          | error er => rw [hrest] at h; cases h
          | ok out2 =>
            rw [hrest] at h
            cases h
            obtain ⟨h1, h2, h3⟩ := ih out2 hrest
            have hmem : name ∉ IGNORED_FILES := by simpa using hig
            refine ⟨by
              simpa [List.filter_cons, hmem] using
                congrArg (List.cons name) h1, ?_, ?_⟩
            · intro nm c hm
              rcases List.mem_cons.mp hm with hh | hh
              · cases hh
              · exact h2 nm c hh
            · intro nm sub2 hm
              rcases List.mem_cons.mp hm with hh | hh
              · have he1 : nm = name := congrArg Prod.fst hh
                have he2 : CopyNode.dir sub2 = CopyNode.dir sub :=
                  congrArg Prod.snd hh
                subst he1
                cases he2
                exact ⟨List.mem_cons_self _ _, hsc⟩
              · exact ⟨List.mem_cons_of_mem _ (h3 nm sub2 hh).1,
                  (h3 nm sub2 hh).2⟩
      | file =>
        simp only at h
        cases hcf : copyF (joinPath src name) with
        | error er => rw [hcf] at h; cases h
        | ok content =>
          rw [hcf] at h
          cases hrest : copyEntriesWith recurse copyF src rest with
          | error er => rw [hrest] at h; cases h
          | ok out2 =>
            rw [hrest] at h
            cases h
            obtain ⟨h1, h2, h3⟩ := ih out2 hrest
            have hmem : name ∉ IGNORED_FILES := by simpa using hig
            refine ⟨by
              simpa [List.filter_cons, hmem] using
                congrArg (List.cons name) h1, ?_, ?_⟩
            · intro nm c hm
              rcases List.mem_cons.mp hm with hh | hh
              · have he1 : nm = name := congrArg Prod.fst hh
                have he2 : CopyNode.file c = CopyNode.file content :=
                  congrArg Prod.snd hh
                subst he1
                cases he2
                exact hcf
              · exact h2 nm c hh
            · intro nm sub2 hm
              rcases List.mem_cons.mp hm with hh | hh
              · cases hh
              · exact ⟨List.mem_cons_of_mem _ (h3 nm sub2 hh).1,
                  (h3 nm sub2 hh).2⟩
      | symlink =>
        simp only at h
        cases hcf : copyF (joinPath src name) with
        | error er => rw [hcf] at h; cases h
        | ok content =>
          rw [hcf] at h
          cases hrest : copyEntriesWith recurse copyF src rest with
          | error er => rw [hrest] at h; cases h
          | ok out2 =>
            rw [hrest] at h
            cases h
            obtain ⟨h1, h2, h3⟩ := ih out2 hrest
            have hmem : name ∉ IGNORED_FILES := by simpa using hig
            refine ⟨by
              simpa [List.filter_cons, hmem] using
                congrArg (List.cons name) h1, ?_, ?_⟩
            · intro nm c hm
              rcases List.mem_cons.mp hm with hh | hh
              · have he1 : nm = name := congrArg Prod.fst hh
                have he2 : CopyNode.file c = CopyNode.file content :=
                  congrArg Prod.snd hh
                subst he1
                cases he2
                exact hcf
              · exact h2 nm c hh
            · intro nm sub2 hm
              rcases List.mem_cons.mp hm with hh | hh
              · cases hh
              · exact ⟨List.mem_cons_of_mem _ (h3 nm sub2 hh).1,
                  (h3 nm sub2 hh).2⟩

/-- Claim C6 (amended): the template copy skips exactly the entries whose
name is in the fixed IGNORED_FILES list — the produced names are the entry
names outside that list, in order (so a dot-named entry outside the list is
copied) — and every produced file carries the byte content read from its
source path; produced subdirectories are materialized by the same copy
operation on their source path. -/
theorem c6_copy_filters_exactly_ignored (fuel : Nat) (root : FSNode)
    (src : String) (ents : List (String × DirentKind))
    (out : List (String × CopyNode))
    (hr : readdirEntsFS fuel root src = some ents)
    (hc : secureCopyTemplate fuel root src = .ok out) :
    out.map Prod.fst =
      (ents.map Prod.fst).filter (fun n => ! IGNORED_FILES.contains n) ∧
    (∀ nm c, (nm, CopyNode.file c) ∈ out →
      copyFileFS (fuel - 1) root (joinPath src nm) = .ok c) ∧
    (∀ nm sub, (nm, CopyNode.dir sub) ∈ out →
      secureCopyTemplate (fuel - 1) root (joinPath src nm) = .ok sub) := by
  cases fuel with
  | zero => simp [secureCopyTemplate] at hc
  | succ fuel =>
    rw [secureCopyTemplate, hr] at hc
    obtain ⟨h1, h2, h3⟩ := copyEntriesWith_spec
      (fun p => secureCopyTemplate fuel root p) (copyFileFS fuel root) src
      ents out hc
    exact ⟨h1, by simpa using h2, fun nm sub hm => by
      simpa using (h3 nm sub hm).2⟩

/-- Witness for claim C6 at the scenario-C template: the copied names are
exactly the non-ignored ones (the dot file .customrc is kept, .env and
secrets.json are dropped) and app.js is copied byte-for-byte. -/
theorem c6_copy_filters_exactly_ignored_witness :
    [".customrc", "app.js", "sub"] =
      (([(".customrc", DirentKind.file), (".env", DirentKind.file),
         ("secrets.json", DirentKind.file), ("app.js", DirentKind.file),
         ("sub", DirentKind.dir)].map Prod.fst).filter
        (fun n => ! IGNORED_FILES.contains n)) ∧
    copyFileFS 19 templateFS (joinPath "/tpl" "app.js") = .ok "console" := by
  have h := c6_copy_filters_exactly_ignored 20 templateFS "/tpl"
    [(".customrc", DirentKind.file), (".env", DirentKind.file),
     ("secrets.json", DirentKind.file), ("app.js", DirentKind.file),
     ("sub", DirentKind.dir)]
    [(".customrc", CopyNode.file "x"), ("app.js", CopyNode.file "console"),
     ("sub", CopyNode.dir [("inner.txt", CopyNode.file "i")])]
    rfl rfl
  exact ⟨h.1.symm, h.2.1 "app.js" "console"
    (List.Mem.tail _ (List.Mem.head _))⟩

/-- Claim C4 (amended): the template copier never recurses into a symlinked
directory: every directory node of the produced tree corresponds to an entry
whose dirent kind is a real directory (a symlink entry reports
isDirectory() false and is handed to copyFile instead). -/
theorem c4_copy_never_recurses_into_symlink (fuel : Nat) (root : FSNode)
    (src : String) (ents : List (String × DirentKind))
    (out : List (String × CopyNode))
    (hr : readdirEntsFS fuel root src = some ents)
    (hc : secureCopyTemplate fuel root src = .ok out) :
    ∀ nm sub, (nm, CopyNode.dir sub) ∈ out → (nm, DirentKind.dir) ∈ ents := by
  cases fuel with
  | zero => simp [secureCopyTemplate] at hc
  | succ fuel =>
    rw [secureCopyTemplate, hr] at hc
    exact fun nm sub hm => (copyEntriesWith_spec
      (fun p => secureCopyTemplate fuel root p) (copyFileFS fuel root) src
      ents out hc).2.2 nm sub hm |>.1

/-- Shape of a validateManifest call: it appends the required-field errors
and recommended-field warnings to the shared arrays, snapshots validity from
the updated errors array, and returns the updated arrays as both the result
lists and the new module state. -/
theorem validateManifest_shape (m : Manifest) (fix : Bool)
    (st : ModuleState) :
    validateManifest m fix st =
      (⟨decide ((st.defaultErrors ++ requiredFieldErrors m).length = 0),
        st.defaultErrors ++ requiredFieldErrors m,
        st.defaultWarnings ++ recommendedFieldWarnings m⟩, m,
       ⟨st.defaultErrors ++ requiredFieldErrors m,
        st.defaultWarnings ++ recommendedFieldWarnings m⟩) := rfl

/-- Shape of a validatePermissions call: some lists of permission errors and
warnings are appended to the shared arrays. -/
theorem validatePermissions_shape (m : Manifest) (fix : Bool)
    (st : ModuleState) :
    ∃ e w, validatePermissions m fix st =
      (⟨decide ((st.defaultErrors ++ e).length = 0),
        st.defaultErrors ++ e, st.defaultWarnings ++ w⟩, m,
       ⟨st.defaultErrors ++ e, st.defaultWarnings ++ w⟩) :=
  ⟨_, _, rfl⟩

/-- Shape of a successful validateSecurity call: some error list is appended
to the shared errors array, the warnings array is untouched, and validity is
snapshotted from the updated errors array. -/
theorem validateSecurity_ok_shape (fuel : Nat) (root : FSNode) (dir : String)
    (st : ModuleState) (sr : ValidationResult) (st3 : ModuleState)
    (h : validateSecurity fuel root dir st = .ok (sr, st3)) :
    ∃ e3, st3.defaultErrors = st.defaultErrors ++ e3 ∧
      st3.defaultWarnings = st.defaultWarnings ∧
      sr.valid = decide (st3.defaultErrors.length = 0) := by
  unfold validateSecurity at h
  by_cases hp : pathExistsFS fuel root (joinPath dir "package.json")
  · rw [if_pos hp] at h
    cases hq : readJsonFS fuel root (joinPath dir "package.json") with
    | error e => rw [hq] at h; cases h
    | ok pkg =>
      rw [hq] at h
      simp only [Except.ok.injEq, Prod.mk.injEq] at h
      obtain ⟨h1, h2⟩ := h
      refine ⟨sudoScriptErrors pkg, ?_, ?_, ?_⟩
      · rw [← h2]
      · rw [← h2]
      · rw [← h1, ← h2]
  · rw [if_neg hp] at h
    simp only [Except.ok.injEq, Prod.mk.injEq] at h
    obtain ⟨h1, h2⟩ := h
    refine ⟨[], ?_, ?_, ?_⟩
    · rw [← h2, List.append_nil]
    · rw [← h2]
    · rw [← h1, ← h2]

/-- Shape of a validateAccessibility call: the shared errors array is
untouched, validity is snapshotted from it, and some warnings list becomes
the new shared warnings array. -/
theorem validateAccessibility_shape (fuel : Nat) (root : FSNode)
    (dir : String) (st : ModuleState) :
    ∃ w, validateAccessibility fuel root dir st =
      (⟨decide (st.defaultErrors.length = 0), st.defaultErrors, w⟩,
       ⟨st.defaultErrors, w⟩) :=
  ⟨_, rfl⟩

/-- Shape of a successful aggregated run: the final shared errors array
extends the initial one by the manifest, permission and security errors in
order; all four returned results hold that final array as their errors
list, and each validity flag is the emptiness snapshot taken when its
validator finished. -/
theorem runAll_ok_shape (fuel : Nat) (root : FSNode) (m : Manifest)
    (dir : String) (fix : Bool) (st : ModuleState) (r : AllResults)
    (m2 : Manifest) (st4 : ModuleState)
    (h : runAllValidations fuel root m dir fix st = .ok (r, m2, st4)) :
    ∃ e2 e3,
      st4.defaultErrors =
        ((st.defaultErrors ++ requiredFieldErrors m) ++ e2) ++ e3 ∧
      r.manifestResult.errors = st4.defaultErrors ∧
      r.permissionsResult.errors = st4.defaultErrors ∧
      r.securityResult.errors = st4.defaultErrors ∧
      r.accessibilityResult.errors = st4.defaultErrors ∧
      r.manifestResult.valid =
        decide ((st.defaultErrors ++ requiredFieldErrors m).length = 0) ∧
      r.permissionsResult.valid =
        decide (((st.defaultErrors ++ requiredFieldErrors m) ++ e2).length
          = 0) ∧
      r.securityResult.valid = decide (st4.defaultErrors.length = 0) ∧
      r.accessibilityResult.valid =
        decide (st4.defaultErrors.length = 0) := by
  obtain ⟨e2, w2, hp⟩ := validatePermissions_shape m fix
    ⟨st.defaultErrors ++ requiredFieldErrors m,
     st.defaultWarnings ++ recommendedFieldWarnings m⟩
  unfold runAllValidations at h
  rw [validateManifest_shape] at h
  simp only at h
  rw [hp] at h
  simp only at h
  cases hs : validateSecurity fuel root dir
      ⟨(st.defaultErrors ++ requiredFieldErrors m) ++ e2,
       (st.defaultWarnings ++ recommendedFieldWarnings m) ++ w2⟩ with
  | error e => rw [hs] at h; cases h
  | ok v =>
    rcases v with ⟨sr, st3⟩
    obtain ⟨e3, hE3, hW3, hsv⟩ := validateSecurity_ok_shape fuel root dir
      _ sr st3 hs
    obtain ⟨w4, ha⟩ := validateAccessibility_shape fuel root dir st3
    rw [hs] at h
    simp only [ha] at h
    simp only [Except.ok.injEq, Prod.mk.injEq] at h
    obtain ⟨hr', hm2, hst4⟩ := h
    refine ⟨e2, e3, ?_, ?_, ?_, ?_, ?_, ?_, ?_, ?_, ?_⟩ <;>
      simp only [← hr', ← hst4] <;> simp [hE3, hsv]

/-- Claim C5 (amended): for results produced by the aggregated run, the
consolidated errors and warnings lists are the concatenations, in the fixed
order manifest, permissions, security, accessibility, of the four
sub-results' lists with a category naming the source validator annotated
onto every diagnostic; the consolidated validity is the conjunction of the
four validities, and it is true exactly when the consolidated errors list is
empty. -/
theorem c5_consolidation_contract (fuel : Nat) (root : FSNode) (m : Manifest)
    (dir : String) (fix : Bool) (st : ModuleState) (r : AllResults)
    (m2 : Manifest) (st4 : ModuleState)
    (h : runAllValidations fuel root m dir fix st = .ok (r, m2, st4)) :
    (consolidateResults r).errors =
      r.manifestResult.errors.map (withCategory "manifest") ++
      r.permissionsResult.errors.map (withCategory "permissions") ++
      r.securityResult.errors.map (withCategory "security") ++
      r.accessibilityResult.errors.map (withCategory "accessibility") ∧
    (consolidateResults r).warnings =
      r.manifestResult.warnings.map (withCategory "manifest") ++
      r.permissionsResult.warnings.map (withCategory "permissions") ++
      r.securityResult.warnings.map (withCategory "security") ++
      r.accessibilityResult.warnings.map (withCategory "accessibility") ∧
    (consolidateResults r).valid =
      (r.manifestResult.valid && r.permissionsResult.valid &&
       r.securityResult.valid && r.accessibilityResult.valid) ∧
    ((consolidateResults r).valid = true ↔
      (consolidateResults r).errors = []) := by
  obtain ⟨e2, e3, hE, hm1, hp1, hs1, ha1, hmv, hpv, hsv, hav⟩ :=
    runAll_ok_shape fuel root m dir fix st r m2 st4 h
  refine ⟨rfl, rfl, rfl, ?_⟩
  constructor
  · intro hv
    have hall : r.manifestResult.valid ∧ r.permissionsResult.valid ∧
        r.securityResult.valid ∧ r.accessibilityResult.valid := by
      simpa [consolidateResults, Bool.and_eq_true, and_assoc] using hv
    have hnil : st4.defaultErrors = [] := by
      have := hall.2.2.2
      rw [hav] at this
      simpa [List.length_eq_zero] using this
    simp [consolidateResults, hm1, hp1, hs1, ha1, hnil]
  · intro hz
    have hnil : st4.defaultErrors = [] := by
      have h1 : r.manifestResult.errors.map (withCategory "manifest")
          = [] := by
        have := congrArg (fun l => l.take
          (r.manifestResult.errors.map (withCategory "manifest")).length) hz
        simp only [consolidateResults] at hz
        rcases List.append_eq_nil.mp (by
          simpa only [List.append_assoc] using hz) with ⟨ha, _⟩
        exact ha
      rw [hm1] at h1
      simpa using h1
    have hcomp : (st.defaultErrors ++ requiredFieldErrors m) = [] ∧
        e2 = [] ∧ e3 = [] := by
      rw [hnil] at hE
      rcases List.append_eq_nil.mp hE.symm with ⟨h12, h3⟩
      rcases List.append_eq_nil.mp h12 with ⟨h1, h2⟩
      exact ⟨h1, h2, h3⟩
    simp [consolidateResults, hmv, hpv, hsv, hav, hnil, hcomp.1, hcomp.2.1]


/-- Witness for claim C5 at the concrete run on the one-error manifest. -/
theorem c5_consolidation_contract_witness :
    (consolidateResults c5RunResults).valid = true ↔
      (consolidateResults c5RunResults).errors = [] :=
  (c5_consolidation_contract 20 projEmptyFS agentOneErrorManifest "/proj"
    false initialState c5RunResults c5RunManifest c5RunState rfl).2.2.2

/-! ## Path lemmas for the containment proof -/


theorem splitOnCharAux_no_sep (sep : Char) :
    ∀ (l acc : List Char), sep ∉ acc →
      ∀ p ∈ splitOnCharAux sep l acc, sep ∉ p := by
  intro l
  induction l with
  | nil =>
    intro acc hacc p hp
    simp only [splitOnCharAux, List.mem_singleton] at hp
    subst hp
    simpa [List.mem_reverse] using hacc
  | cons c cs ih =>
    intro acc hacc p hp
    by_cases hc : c = sep
    · rw [splitOnCharAux, if_pos hc] at hp
      rcases List.mem_cons.mp hp with h | h
      · subst h; simpa [List.mem_reverse] using hacc
      · exact ih [] (by simp) p h
    · rw [splitOnCharAux, if_neg hc] at hp
      refine ih (c :: acc) ?_ p hp
      intro hm
      rcases List.mem_cons.mp hm with h | h
      · exact hc h.symm
      · exact hacc h

theorem splitOnCharAux_append (sep : Char) :
    ∀ (a b acc : List Char),
      splitOnCharAux sep (a ++ sep :: b) acc =
        splitOnCharAux sep a acc ++ splitOnChar sep b := by
  intro a
  induction a with
  | nil =>
    intro b acc
    simp [splitOnCharAux, splitOnChar]
  | cons c cs ih =>
    intro b acc
    by_cases hc : c = sep
    · rw [List.cons_append, splitOnCharAux, if_pos hc, splitOnCharAux,
        if_pos hc, ih, List.cons_append]
    · rw [List.cons_append, splitOnCharAux, if_neg hc, splitOnCharAux,
        if_neg hc, ih]

theorem splitOnCharAux_of_no_sep (sep : Char) :
    ∀ (l acc : List Char), sep ∉ l →
      splitOnCharAux sep l acc = [acc.reverse ++ l] := by
  intro l
  induction l with
  | nil => intro acc h; simp [splitOnCharAux]
  | cons c cs ih =>
    intro acc h
    have hc : ¬ c = sep := fun he => h (he ▸ List.mem_cons_self c cs)
    rw [splitOnCharAux, if_neg hc, ih (c :: acc)
      (fun hm => h (List.mem_cons_of_mem c hm))]
    simp

theorem splitParts_append (a b : List Char) :
    splitParts (a ++ '/' :: b) = splitParts a ++ splitParts b := by
  unfold splitParts splitOnChar
  rw [splitOnCharAux_append, List.filter_append]
  rfl

theorem splitParts_single (l : List Char) (hne : l ≠ []) (hs : '/' ∉ l) :
    splitParts l = [l] := by
  unfold splitParts splitOnChar
  rw [splitOnCharAux_of_no_sep _ _ _ hs]
  simp [hne]

theorem splitParts_nil : splitParts [] = [] := rfl

theorem splitParts_no_sep (l : List Char) :
    ∀ p ∈ splitParts l, p ≠ [] ∧ '/' ∉ p := by
  intro p hp
  have h1 := List.mem_filter.mp hp
  refine ⟨by simpa using h1.2, ?_⟩
  exact splitOnCharAux_no_sep '/' l [] (by simp) p h1.1

theorem renderParts_append_single (cs : List (List Char)) (b : List Char)
    (h : cs ≠ []) :
    renderParts (cs ++ [b]) = renderParts cs ++ '/' :: b := by
  induction cs with
  | nil => exact absurd rfl h
  | cons c cs' ih =>
    cases cs' with
    | nil => simp [renderParts]
    | cons c2 cs'' =>
      show c ++ '/' :: renderParts (c2 :: (cs'' ++ [b])) =
        (c ++ '/' :: renderParts (c2 :: cs'')) ++ '/' :: b
      rw [← List.cons_append, ih (by simp)]
      simp

theorem splitParts_render (cs : List (List Char))
    (h : ∀ p ∈ cs, p ≠ [] ∧ '/' ∉ p) :
    splitParts (renderParts cs) = cs := by
  induction cs with
  | nil => exact splitParts_nil
  | cons c cs' ih =>
    cases cs' with
    | nil =>
      have hc := h c (List.mem_singleton.mpr rfl)
      rw [renderParts, splitParts_single c hc.1 hc.2]
    | cons c2 cs'' =>
      have hc := h c (List.mem_cons_self _ _)
      rw [renderParts, splitParts_append, splitParts_single c hc.1 hc.2,
        ih (fun p hp => h p (List.mem_cons_of_mem _ hp))]
      rfl

theorem head?_renderParts (c : List Char) (cs : List (List Char))
    (hc : c ≠ []) : (renderParts (c :: cs)).head? = c.head? := by
  cases cs with
  | nil => rfl
  | cons c2 cs' =>
    rw [renderParts]
    exact List.head?_append_of_ne_nil _ hc

theorem foldl_normStep_mem (abs : Bool) :
    ∀ (cs stack : List (List Char)),
      (∀ x ∈ stack, x ≠ [] ∧ '/' ∉ x) →
      (∀ x ∈ cs, x ≠ [] ∧ '/' ∉ x) →
      ∀ x ∈ cs.foldl (normStep abs) stack, x ≠ [] ∧ '/' ∉ x := by
  intro cs
  induction cs with
  | nil => intro stack hs _ x hx; exact hs x hx
  | cons c cs' ih =>
    intro stack hs hc x hx
    rw [List.foldl_cons] at hx
    refine ih (normStep abs stack c) ?_
      (fun y hy => hc y (List.mem_cons_of_mem _ hy)) x hx
    intro y hy
    unfold normStep at hy
    by_cases h1 : c = dotPart
    · rw [if_pos h1] at hy; exact hs y hy
    · rw [if_neg h1] at hy
      by_cases h2 : c = dotDotPart
      · rw [if_pos h2] at hy
        by_cases h4 : stack = []
        · rw [if_pos h4] at hy
          cases abs with
          | true => simp at hy
          | false =>
            rw [if_neg (by decide)] at hy
            rw [List.mem_singleton] at hy
            subst hy; exact ⟨by decide, by decide⟩
        · rw [if_neg h4] at hy
          by_cases h3 : stack.headD [] = dotDotPart
          · rw [if_pos h3] at hy
            rcases List.mem_cons.mp hy with h | h
            · subst h; exact ⟨by simp [h2, dotDotPart], by simp [h2, dotDotPart]⟩
            · exact hs y h
          · rw [if_neg h3] at hy
            cases stack with
            | nil => exact absurd rfl h4
            | cons top rest =>
              exact hs y (List.mem_cons_of_mem _ hy)
      · rw [if_neg h2] at hy
        rcases List.mem_cons.mp hy with h | h
        · subst h; exact hc _ (List.mem_cons_self _ _)
        · exact hs y h

theorem foldl_normStep_true_clean :
    ∀ (cs stack : List (List Char)),
      (∀ x ∈ stack, x ≠ dotPart ∧ x ≠ dotDotPart) →
      ∀ x ∈ cs.foldl (normStep true) stack,
        x ≠ dotPart ∧ x ≠ dotDotPart := by
  intro cs
  induction cs with
  | nil => intro stack hs x hx; exact hs x hx
  | cons c cs' ih =>
    intro stack hs x hx
    rw [List.foldl_cons] at hx
    refine ih (normStep true stack c) ?_ x hx
    intro y hy
    unfold normStep at hy
    by_cases h1 : c = dotPart
    · rw [if_pos h1] at hy; exact hs y hy
    · rw [if_neg h1] at hy
      by_cases h2 : c = dotDotPart
      · rw [if_pos h2] at hy
        by_cases h4 : stack = []
        · rw [if_pos h4, if_pos rfl] at hy
          simp at hy
        · rw [if_neg h4] at hy
          cases stack with
          | nil => exact absurd rfl h4
          | cons top rest =>
            have h3 : ¬ (top :: rest).headD [] = dotDotPart :=
              (hs top (List.mem_cons_self _ _)).2
            rw [if_neg h3] at hy
            exact hs y (List.mem_cons_of_mem _ hy)
      · rw [if_neg h2] at hy
        rcases List.mem_cons.mp hy with h | h
        · subst h; exact ⟨h1, h2⟩
        · exact hs y h

theorem foldl_normStep_of_clean (abs : Bool) :
    ∀ (cs stack : List (List Char)),
      (∀ x ∈ cs, x ≠ dotPart ∧ x ≠ dotDotPart) →
      cs.foldl (normStep abs) stack = cs.reverse ++ stack := by
  intro cs
  induction cs with
  | nil => intro stack _; simp
  | cons c cs' ih =>
    intro stack hc
    have h1 := hc c (List.mem_cons_self _ _)
    rw [List.foldl_cons]
    rw [show normStep abs stack c = c :: stack by
      unfold normStep; rw [if_neg h1.1, if_neg h1.2]]
    rw [ih (c :: stack) (fun y hy => hc y (List.mem_cons_of_mem _ hy))]
    simp

theorem normComps_of_clean (abs : Bool) (cs : List (List Char))
    (h : ∀ x ∈ cs, x ≠ dotPart ∧ x ≠ dotDotPart) :
    normComps abs cs = cs := by
  unfold normComps
  rw [foldl_normStep_of_clean abs cs [] h]
  simp

theorem normComps_good (cs : List (List Char))
    (h : ∀ x ∈ cs, x ≠ [] ∧ '/' ∉ x) :
    ∀ x ∈ normComps true cs, goodPart x := by
  intro x hx
  unfold normComps at hx
  rw [List.mem_reverse] at hx
  have h1 := foldl_normStep_mem true cs [] (by simp) h x hx
  have h2 := foldl_normStep_true_clean cs [] (by simp) x hx
  exact ⟨h1.1, h1.2, h2.1, h2.2⟩


theorem normComps_partOk (abs : Bool) (l : List Char) :
    ∀ x ∈ normComps abs (splitParts l), x ≠ [] ∧ '/' ∉ x := by
  intro x hx
  unfold normComps at hx
  rw [List.mem_reverse] at hx
  exact foldl_normStep_mem abs _ [] (by simp) (splitParts_no_sep l) x hx

theorem normalizeL_of_abs (l : List Char) (h : isAbsL l = true) :
    normalizeL l = '/' :: renderParts (normComps true (splitParts l)) := by
  simp [normalizeL, h]

theorem splitParts_absRender (cs : List (List Char)) (h : goodParts cs) :
    splitParts ('/' :: renderParts cs) = cs := by
  have e : ('/' :: renderParts cs) = [] ++ '/' :: renderParts cs := rfl
  rw [e, splitParts_append, splitParts_nil, List.nil_append]
  exact splitParts_render cs (fun p hp => ⟨(h p hp).1, (h p hp).2.1⟩)

theorem normalizeL_absRender (cs : List (List Char)) (h : goodParts cs) :
    normalizeL ('/' :: renderParts cs) = '/' :: renderParts cs := by
  rw [normalizeL_of_abs ('/' :: renderParts cs) (by rfl),
    splitParts_absRender cs h,
    normComps_of_clean true cs (fun x hx => ⟨(h x hx).2.2.1, (h x hx).2.2.2⟩)]

theorem isAbsL_normalizeL_false (l : List Char) (h : isAbsL l = false) :
    isAbsL (normalizeL l) = false := by
  unfold normalizeL
  rw [h]
  simp only [Bool.false_eq_true, if_false]
  by_cases hcs : normComps false (splitParts l) = []
  · rw [if_pos hcs]
    rfl
  · rw [if_neg hcs]
    cases hc : normComps false (splitParts l) with
    | nil => exact absurd hc hcs
    | cons c rest =>
      have hok : c ≠ [] ∧ '/' ∉ c :=
        normComps_partOk false l c (hc ▸ List.mem_cons_self _ _)
      unfold isAbsL
      rw [head?_renderParts c rest hok.1]
      cases c with
      | nil => exact absurd rfl hok.1
      | cons ch ctail =>
        have : ch ≠ '/' := fun he => hok.2 (he ▸ List.mem_cons_self _ _)
        simpa using this

theorem joinPath_absRender (nd : String) (cs : List (List Char))
    (h : goodParts cs) (hnd : nd.data = '/' :: renderParts cs)
    (item : String) (hi1 : item.data ≠ []) (hi2 : '/' ∉ item.data)
    (hi3 : item.data ≠ dotPart) (hi4 : item.data ≠ dotDotPart) :
    (joinPath nd item).data = '/' :: renderParts (cs ++ [item.data]) := by
  show normalizeL (nd.data ++ '/' :: item.data) = _
  rw [hnd]
  have hgood : goodParts (cs ++ [item.data]) := by
    intro x hx
    rcases List.mem_append.mp hx with hm | hm
    · exact h x hm
    · rw [List.mem_singleton] at hm
      subst hm
      exact ⟨hi1, hi2, hi3, hi4⟩
  rw [normalizeL_of_abs (('/' :: renderParts cs) ++ '/' :: item.data)
      (by rfl),
    splitParts_append, splitParts_absRender cs h,
    splitParts_single _ hi1 hi2,
    normComps_of_clean true _
      (fun x hx => ⟨(hgood x hx).2.2.1, (hgood x hx).2.2.2⟩)]

theorem absRender_isPrefixOf (cs : List (List Char)) (b : List Char) :
    ('/' :: renderParts cs).isPrefixOf
      ('/' :: renderParts (cs ++ [b])) = true := by
  rw [List.isPrefixOf_iff_prefix]
  cases hcs : cs with
  | nil =>
    simp [renderParts]
  | cons c rest =>
    rw [renderParts_append_single _ b (by simp)]
    exact List.cons_prefix_cons.mpr ⟨rfl, List.prefix_append _ _⟩

theorem pathComps_of_absRender (s : String) (cs : List (List Char))
    (h : goodParts cs) (hs : s.data = '/' :: renderParts cs) :
    pathComps s = cs := by
  unfold pathComps
  rw [hs, normalizeL_absRender cs h, splitParts_absRender cs h]

theorem normalizePath_of_absRender (s : String) (cs : List (List Char))
    (h : goodParts cs) (hs : s.data = '/' :: renderParts cs) :
    normalizePath s = s := by
  rcases s with ⟨d⟩
  show (⟨normalizeL d⟩ : String) = ⟨d⟩
  have : d = '/' :: renderParts cs := hs
  rw [this, normalizeL_absRender cs h]

theorem normalizePath_abs_shape (dir : String)
    (h : isAbsolutePath (normalizePath dir) = true) :
    ∃ cs, goodParts cs ∧ (normalizePath dir).data = '/' :: renderParts cs := by
  by_cases ha : isAbsL dir.data
  · refine ⟨normComps true (splitParts dir.data),
      normComps_good _ (splitParts_no_sep dir.data), ?_⟩
    show normalizeL dir.data = _
    exact normalizeL_of_abs _ ha
  · exfalso
    have hfalse : isAbsL (normalizeL dir.data) = false :=
      isAbsL_normalizeL_false dir.data (by simpa using ha)
    have : isAbsolutePath (normalizePath dir) = false := hfalse
    rw [this] at h
    cases h


theorem lookupEntry_mem (es : List (String × FSNode)) (c : List Char)
    (n : FSNode) (h : lookupEntry es c = some n) : ∃ e ∈ es, e.2 = n := by
  induction es with
  | nil => cases h
  | cons e rest ih =>
    rw [lookupEntry] at h
    by_cases hc : e.1.data = c
    · rw [if_pos hc] at h
      cases h
      exact ⟨e, List.mem_cons_self _ _, rfl⟩
    · rw [if_neg hc] at h
      obtain ⟨e2, he2, hn⟩ := ih h
      exact ⟨e2, List.mem_cons_of_mem _ he2, hn⟩

theorem resolve_namesOk (root : FSNode) (hroot : NamesOk root) :
    ∀ (fuel : Nat) (node : FSNode) (comps : List (List Char))
      (res : FSNode), NamesOk node →
      resolve fuel root node comps = some res → NamesOk res := by
  intro fuel
  induction fuel with
  | zero => intro node comps res _ h; cases h
  | succ fuel ih =>
    intro node comps res hnode h
    cases node with
    | symlink t =>
      rw [resolve] at h
      by_cases habs : isAbsL t.data
      · rw [if_pos habs] at h
        cases hr : resolve fuel root root (pathComps t) with
        | none => rw [hr] at h; cases h
        | some n =>
          rw [hr] at h
          exact ih n comps res (ih root (pathComps t) n hroot hr) h
      · rw [if_neg habs] at h
        cases h
    | file r c =>
      rw [resolve] at h
      by_cases hc : comps.isEmpty
      · rw [if_pos hc] at h
        cases h
        exact NamesOk.file r c
      · rw [if_neg hc] at h
        cases h
    | dir es =>
      cases comps with
      | nil =>
        rw [resolve] at h
        cases h
        exact hnode
      | cons c cs =>
        rw [resolve] at h
        cases hl : lookupEntry es c with
        | none => rw [hl] at h; cases h
        | some child =>
          rw [hl] at h
          obtain ⟨e, he, hn⟩ := lookupEntry_mem es c child hl
          have hchild : NamesOk child := by
            cases hnode with
            | dir es hn2 hrec => exact hn ▸ hrec e he
          exact ih child cs res hchild h

theorem readdirFS_names (fuel : Nat) (root : FSNode) (hroot : NamesOk root)
    (p : String) (items : List String)
    (h : readdirFS fuel root p = some items) :
    ∀ it ∈ items, it.data ≠ [] ∧ '/' ∉ it.data := by
  unfold readdirFS resolvePath at h
  cases hr : resolve fuel root root (pathComps p) with
  | none => rw [hr] at h; cases h
  | some res =>
    rw [hr] at h
    cases res with
    | file r c => cases h
    | symlink t => cases h
    | dir es =>
      cases h
      have hok := resolve_namesOk root hroot fuel root (pathComps p)
        (.dir es) hroot hr
      intro it hit
      rw [List.mem_map] at hit
      obtain ⟨e, he, heq⟩ := hit
      cases hok with
      | dir es hn hrec => exact heq ▸ hn e he

theorem isPrefixOf_append_single (cs : List (List Char)) (b : List Char) :
    cs.isPrefixOf (cs ++ [b]) = true := by
  rw [List.isPrefixOf_iff_prefix]
  exact List.prefix_append _ _

theorem isPrefixOf_trans {a b c : List (List Char)}
    (h1 : a.isPrefixOf b = true) (h2 : b.isPrefixOf c = true) :
    a.isPrefixOf c = true := by
  rw [List.isPrefixOf_iff_prefix] at *
  exact h1.trans h2

theorem strStartsWith_trans {a b c : String}
    (h1 : strStartsWith b a = true) (h2 : strStartsWith c b = true) :
    strStartsWith c a = true := by
  unfold strStartsWith at *
  rw [List.isPrefixOf_iff_prefix] at *
  exact h1.trans h2

/-- Containment invariant of the walker loop: provided the recursion
satisfies the containment property and the entry names are well formed,
every yield is a normalized path string-prefixed by the directory whose
components extend the directory's components. -/
theorem findFilesLoop_containment
    (recurse : String → List String) (statF : String → Option FileKind)
    (nd : String) (exts : List String) (cs : List (List Char))
    (hcs : goodParts cs) (hnd : nd.data = '/' :: renderParts cs)
    (hrec : ∀ d p, p ∈ recurse d →
      normalizePath p = p ∧
      strStartsWith p (normalizePath d) = true ∧
      (pathComps (normalizePath d)).isPrefixOf (pathComps p) = true) :
    ∀ (items : List String), (∀ it ∈ items, it.data ≠ [] ∧ '/' ∉ it.data) →
      ∀ p ∈ findFilesLoop recurse statF nd exts items,
        normalizePath p = p ∧
        strStartsWith p nd = true ∧
        cs.isPrefixOf (pathComps p) = true := by
  intro items
  induction items with
  | nil => intro _ p hp; simp [findFilesLoop] at hp
  | cons item rest ih =>
    intro hnames p hp
    rw [findFilesLoop] at hp
    rcases List.mem_append.mp hp with h1 | h1
    case inr =>
      exact ih (fun it hit => hnames it (List.mem_cons_of_mem _ hit)) p h1
    case inl =>
      by_cases hdot : strStartsWith item "."
      · rw [if_pos hdot] at h1; cases h1
      · rw [if_neg hdot] at h1
        have hi12 := hnames item (List.mem_cons_self _ _)
        have hi3 : item.data ≠ dotPart := by
          intro he
          unfold strStartsWith at hdot
          rw [he] at hdot
          exact hdot (by decide)
        have hi4 : item.data ≠ dotDotPart := by
          intro he
          unfold strStartsWith at hdot
          rw [he] at hdot
          exact hdot (by decide)
        have hgood : goodParts (cs ++ [item.data]) := by
          intro x hx
          rcases List.mem_append.mp hx with hm | hm
          · exact hcs x hm
          · rw [List.mem_singleton] at hm
            subst hm
            exact ⟨hi12.1, hi12.2, hi3, hi4⟩
        have hfp : (joinPath nd item).data =
            '/' :: renderParts (cs ++ [item.data]) :=
          joinPath_absRender nd cs hcs hnd item hi12.1 hi12.2 hi3 hi4
        have hnormfp : normalizePath (joinPath nd item) = joinPath nd item :=
          normalizePath_of_absRender _ _ hgood hfp
        have hsw : strStartsWith (joinPath nd item) nd = true := by
          unfold strStartsWith
          rw [hnd, hfp]
          exact absRender_isPrefixOf cs item.data
        have hcomps : pathComps (joinPath nd item) = cs ++ [item.data] :=
          pathComps_of_absRender _ _ hgood hfp
        by_cases hck : strStartsWith (joinPath nd item) nd
        case neg => rw [if_pos (by simpa using hck)] at h1; cases h1
        case pos =>
          rw [if_neg (by simpa using hck)] at h1
          cases hstat : statF (joinPath nd item) with
          | none => rw [hstat] at h1; cases h1
          | some k =>
            rw [hstat] at h1
            cases k with
            | dir =>
              obtain ⟨hq1, hq2, hq3⟩ := hrec (joinPath nd item) p h1
              rw [hnormfp] at hq2 hq3
              rw [hcomps] at hq3
              exact ⟨hq1, strStartsWith_trans hsw hq2,
                isPrefixOf_trans (isPrefixOf_append_single cs item.data) hq3⟩
            | file =>
              by_cases hext : exts.any (fun ext => strEndsWith item ext)
              · rw [if_pos hext] at h1
                rw [List.mem_singleton] at h1
                subst h1
                exact ⟨hnormfp, hsw,
                  hcomps ▸ isPrefixOf_append_single cs item.data⟩
              · rw [if_neg hext] at h1; cases h1

theorem findFiles_nil_of_not_abs (fuel : Nat) (root : FSNode) (dir : String)
    (exts : List String) (h : ¬ isAbsolutePath (normalizePath dir) = true) :
    findFiles fuel root dir exts = [] := by
  cases fuel with
  | zero => rfl
  | succ fuel =>
    rw [findFiles]
    rw [if_pos (by simpa using h)]

/-- Containment of the walker: every yield of findFiles is a normalized
path, string-prefixed by the normalized directory, whose components extend
the normalized directory's components. -/
theorem findFiles_out (root : FSNode) (hroot : NamesOk root)
    (exts : List String) :
    ∀ (fuel : Nat) (dir p : String),
      p ∈ findFiles fuel root dir exts →
      normalizePath p = p ∧
      strStartsWith p (normalizePath dir) = true ∧
      (pathComps (normalizePath dir)).isPrefixOf (pathComps p) = true := by
  intro fuel
  induction fuel with
  | zero => intro dir p hp; simp [findFiles] at hp
  | succ fuel ih =>
    intro dir p hp
    rw [findFiles] at hp
    by_cases habs : isAbsolutePath (normalizePath dir)
    case neg => rw [if_pos (by simpa using habs)] at hp; cases hp
    case pos =>
      rw [if_neg (by simpa using habs)] at hp
      by_cases hex : pathExistsFS (fuel + 1) root (normalizePath dir)
      case neg => rw [if_pos (by simpa using hex)] at hp; cases hp
      case pos =>
        rw [if_neg (by simpa using hex)] at hp
        cases hrd : readdirFS (fuel + 1) root (normalizePath dir) with
        | none => rw [hrd] at hp; cases hp
        | some items =>
          rw [hrd] at hp
          obtain ⟨cs, hgood, hshape⟩ := normalizePath_abs_shape dir habs
          have hnames := readdirFS_names (fuel + 1) root hroot
            (normalizePath dir) items hrd
          obtain ⟨h1, h2, h3⟩ := findFilesLoop_containment
            (fun q => findFiles fuel root q exts)
            (statKindFS (fuel + 1) root) (normalizePath dir) exts cs hgood
            hshape (fun d q hq => ih d q hq) items hnames p hp
          exact ⟨h1, h2,
            (pathComps_of_absRender _ _ hgood hshape).symm ▸ h3⟩

theorem pathComps_normalizePath (dir : String)
    (habs : isAbsolutePath (normalizePath dir) = true) :
    pathComps (normalizePath dir) = pathComps dir := by
  have ha : isAbsL dir.data = true := by
    by_contra hno
    have hfalse : isAbsolutePath (normalizePath dir) = false :=
      isAbsL_normalizeL_false dir.data (by simpa using hno)
    rw [hfalse] at habs
    cases habs
  have hgood : goodParts (normComps true (splitParts dir.data)) :=
    normComps_good _ (splitParts_no_sep _)
  have hshape : (normalizePath dir).data =
      '/' :: renderParts (normComps true (splitParts dir.data)) :=
    normalizeL_of_abs _ ha
  rw [pathComps_of_absRender _ _ hgood hshape]
  show _ = splitParts (normalizeL dir.data)
  rw [normalizeL_of_abs _ ha, splitParts_absRender _ hgood]

/-- Claim C2 (amended): in a tree whose entry names are well formed (as on
every real filesystem), every path yielded by findFiles is, after
normalization, string-prefixed by the normalized root and contained in it
component-wise; safeReadFile only returns content for a file whose
normalized path is string-prefixed by the normalized base — but string
prefixing alone is all it checks, which does not imply containment (see the
counterexample). -/
theorem c2_walker_containment (fuel : Nat) (root : FSNode)
    (hroot : NamesOk root) :
    (∀ dir exts p, p ∈ findFiles fuel root dir exts →
      strStartsWith (normalizePath p) (normalizePath dir) = true ∧
      pathWithin dir p = true) ∧
    (∀ filePath baseDir content,
      safeReadFile fuel root filePath baseDir = some content →
      strStartsWith (normalizePath filePath) (normalizePath baseDir)
        = true) := by
  constructor
  · intro dir exts p hp
    obtain ⟨h1, h2, h3⟩ := findFiles_out root hroot exts fuel dir p hp
    have habs : isAbsolutePath (normalizePath dir) = true := by
      by_contra hno
      rw [findFiles_nil_of_not_abs fuel root dir exts hno] at hp
      cases hp
    constructor
    · rw [h1]; exact h2
    · unfold pathWithin
      rw [← pathComps_normalizePath dir habs]
      exact h3
  · intro filePath baseDir content h
    unfold safeReadFile at h
    by_cases hsw : strStartsWith (normalizePath filePath)
        (normalizePath baseDir)
    · exact hsw
    · rw [if_pos (by simpa using hsw)] at h
      cases h

theorem namesOk_a11yFS : NamesOk a11yFS := by
  refine NamesOk.dir _ (by decide) ?_
  intro e he
  rw [List.mem_singleton] at he
  subst he
  refine NamesOk.dir _ (by decide) ?_
  intro e2 he2
  rw [List.mem_singleton] at he2
  subst he2
  refine NamesOk.dir _ (by decide) ?_
  intro e3 he3
  rcases List.mem_cons.mp he3 with h | h
  · subst h; exact NamesOk.file _ _
  · rw [List.mem_singleton] at h
    subst h
    exact NamesOk.file _ _

/-- Witness for claim C2 on the concrete project tree: the yielded file is
prefixed by and contained in the walked directory. -/
theorem c2_walker_containment_witness :
    strStartsWith (normalizePath "/p/src/ok.tsx") (normalizePath "/p/src")
      = true ∧
    pathWithin "/p/src" "/p/src/ok.tsx" = true :=
  (c2_walker_containment 20 a11yFS namesOk_a11yFS).1 "/p/src" [".tsx"]
    "/p/src/ok.tsx" (by decide)


/-- Witness for claim C4: in the copy of the concrete template, the only
directory of the output comes from the real directory entry d (the symlink
entry was copied through copyFile as a file). -/
theorem c4_copy_never_recurses_into_symlink_witness :
    ("d", DirentKind.dir) ∈
      [("real.txt", DirentKind.file), ("link.txt", DirentKind.symlink),
       ("d", DirentKind.dir)] :=
  c4_copy_never_recurses_into_symlink 20 symlinkTplFS "/t2"
    [("real.txt", DirentKind.file), ("link.txt", DirentKind.symlink),
     ("d", DirentKind.dir)]
    [("real.txt", CopyNode.file "r"), ("link.txt", CopyNode.file "r"),
     ("d", CopyNode.dir [("x.txt", CopyNode.file "x")])]
    rfl rfl "d" [("x.txt", CopyNode.file "x")]
    (List.Mem.tail _ (List.Mem.tail _ (List.Mem.head _)))

end VC
